import Mathlib

/-!
# nradix: a bit-indexed radix tree for IPv4 CIDR blocks

Shallow embedding of `tree.go`.  The Go heap is a list of node records; a
pointer is `Option Nat` (`none` is `nil`, `some i` the i-th allocated node).
`uint32` values are natural numbers reduced modulo `2^32` where the Go
operation can overflow.  An `interface{}` payload is `Option V`, `none` being
the `nil` interface.  A Go string is its list of characters: both scanners only
tell `'/'`, `'.'` and the ten decimal digits apart, all of them single-byte,
and reject every other byte or rune, so the byte loop of `loadip4` and the rune
loop of `parsecidr4` act alike on characters.
-/

namespace Nradix

/-! ## Outcomes -/

/-- Outcome of running a piece of the program: a normal return, a Go runtime
panic on a nil pointer dereference, a pointer that names no allocated node
(never produced by the program itself), or an exhausted loop budget. -/
inductive Res (α : Type) where
  | ok (a : α)
  | nilDeref
  | badPtr
  | outOfFuel
deriving DecidableEq, Repr

/-- Sequencing of outcomes: the first abnormal outcome wins. -/
def Res.bind {α β : Type} (x : Res α) (f : α → Res β) : Res β :=
  match x with
  | .ok a => f a
  | .nilDeref => .nilDeref
  | .badPtr => .badPtr
  | .outOfFuel => .outOfFuel

instance : Monad Res where
  pure := Res.ok
  bind := Res.bind

/-- The three error values of the package. -/
inductive Err where
  | ErrNodeBusy
  | ErrNotFound
  | ErrBadIP
deriving DecidableEq, Repr

/-! ## Data model -/

/-- Go `type node struct { left, right, parent *node; value interface{} }`. -/
structure Node (V : Type) where
  left : Option Nat
  right : Option Nat
  parent : Option Nat
  value : Option V
deriving DecidableEq, Repr

/-- Go `type Tree struct { root, free *node; has128 bool }` together with the
heap of allocated nodes. -/
structure Tree (V : Type) where
  nodes : List (Node V)
  root : Option Nat
  free : Option Nat
  has128 : Bool
deriving DecidableEq, Repr

/-- Go `const startbit = uint32(0x80000000)`. -/
def startbit : Nat := 0x80000000

/-- Number of loop turns granted to the loops that shift `bit` right: `bit`
starts at `startbit` and is zero after 32 shifts. -/
def bitFuel : Nat := 33

/-- Number of loop turns granted to the upward pruning loop of `delete32`. -/
def pruneFuel : Nat := 4294967296

/-- Result of `new(node)`: all fields zero. -/
def zeroNode {V : Type} : Node V := ⟨none, none, none, none⟩

/-- Reading through a pointer. -/
def deref {V : Type} (t : Tree V) (p : Option Nat) : Res (Node V) :=
  match p with
  | none => .nilDeref
  | some i =>
    match t.nodes[i]? with
    | some n => .ok n
    | none => .badPtr

/-- Writing through a pointer: assigns fields of the node `p` points to. -/
def modify {V : Type} (t : Tree V) (p : Option Nat) (f : Node V → Node V) : Res (Tree V) :=
  match p with
  | none => .nilDeref
  | some i =>
    match t.nodes[i]? with
    | some n => .ok { t with nodes := t.nodes.set i (f n) }
    | none => .badPtr

/-! ## Node pool -/

/-- Go `func (tree *Tree) newnode() (p *node)`: pops the head of the free list
when there is one (without touching its fields), else allocates a zero node. -/
def newnode {V : Type} (t : Tree V) : Res (Tree V × Option Nat) :=
  match t.free with
  | some p =>
    (deref t (some p)).bind fun n =>
    .ok ({ t with free := n.right }, some p)
  | none => .ok ({ t with nodes := t.nodes ++ [zeroNode] }, some t.nodes.length)

/-! ## insert32 -/

/-- First loop of `insert32`: descends while `bit&mask != 0` and the child
exists.  Returns the final `(bit, node, next)`. -/
def insertDescend {V : Type} (t : Tree V) (key mask : Nat) :
    Nat → Nat → Option Nat → Option Nat → Res (Nat × Option Nat × Option Nat)
  | 0, _, _, _ => .outOfFuel
  | fuel + 1, bit, node, next =>
    if bit &&& mask ≠ 0 then
      (deref t node).bind fun n =>
      let next1 := if key &&& bit ≠ 0 then n.right else n.left
      if next1 = none then .ok (bit, node, next1)
      else insertDescend t key mask fuel (bit >>> 1) next1 next1
    else .ok (bit, node, next)

/-- Second loop of `insert32`: creates one node per remaining mask bit. -/
def insertCreate {V : Type} (key mask : Nat) :
    Nat → Tree V → Nat → Option Nat → Res (Tree V × Option Nat)
  | 0, _, _, _ => .outOfFuel
  | fuel + 1, t, bit, node =>
    if bit &&& mask ≠ 0 then
      (newnode t).bind fun (t1, next) =>
      (modify t1 next fun n => { n with parent := node }).bind fun t2 =>
      (modify t2 node fun n =>
        if key &&& bit ≠ 0 then { n with right := next } else { n with left := next }).bind fun t3 =>
      insertCreate key mask fuel t3 (bit >>> 1) next
    else .ok (t, node)

/-- Go `func (tree *Tree) insert32(key, mask uint32, value interface{}) error`. -/
def insert32 {V : Type} (t : Tree V) (key mask : Nat) (value : Option V) :
    Res (Tree V × Option Err) :=
  (insertDescend t key mask bitFuel startbit t.root t.root).bind fun (bit, node, next) =>
  if next ≠ none then
    (deref t node).bind fun n =>
    if n.value.isSome then .ok (t, some .ErrNodeBusy)
    else (modify t node fun n => { n with value := value }).bind fun t1 => .ok (t1, none)
  else
    (insertCreate key mask bitFuel t bit node).bind fun (t1, node1) =>
    (modify t1 node1 fun n => { n with value := value }).bind fun t2 => .ok (t2, none)

/-! ## delete32 -/

/-- First loop of `delete32`: `for node != nil && bit&mask != 0`. -/
def deleteDescend {V : Type} (t : Tree V) (key mask : Nat) :
    Nat → Nat → Option Nat → Res (Option Nat)
  | 0, _, _ => .outOfFuel
  | fuel + 1, bit, node =>
    if node ≠ none ∧ bit &&& mask ≠ 0 then
      (deref t node).bind fun n =>
      deleteDescend t key mask fuel (bit >>> 1) (if key &&& bit ≠ 0 then n.right else n.left)
    else .ok node

/-- Second loop of `delete32` ("need to trim leaf"): unlinks `node` from its
parent, pushes it on the free list, and moves to the parent. -/
def deletePrune {V : Type} : Nat → Tree V → Option Nat → Res (Tree V)
  | 0, _, _ => .outOfFuel
  | fuel + 1, t, node =>
    (deref t node).bind fun n =>
    (deref t n.parent).bind fun p =>
    (modify t n.parent fun m =>
      if p.right = node then { m with right := none } else { m with left := none }).bind fun t1 =>
    (modify t1 node fun m => { m with right := t1.free }).bind fun t2 =>
    let t3 : Tree V := { t2 with free := node }
    (deref t3 node).bind fun n3 =>
    let node1 := n3.parent
    (deref t3 node1).bind fun m =>
    if m.right ≠ none ∨ m.left ≠ none ∨ m.value.isSome then .ok t3
    else if m.parent = none then .ok t3
    else deletePrune fuel t3 node1

/-- Go `func (tree *Tree) delete32(key, mask uint32) error`. -/
def delete32 {V : Type} (t : Tree V) (key mask : Nat) : Res (Tree V × Option Err) :=
  (deleteDescend t key mask bitFuel startbit t.root).bind fun node =>
  if node = none then .ok (t, some .ErrNotFound)
  else
    (deref t node).bind fun n =>
    if n.right ≠ none ∧ n.left ≠ none then
      if n.value.isSome then
        (modify t node fun m => { m with value := none }).bind fun t1 => .ok (t1, none)
      else .ok (t, some .ErrNotFound)
    else
      (deletePrune pruneFuel t node).bind fun t1 => .ok (t1, none)

/-! ## find32 -/

/-- Loop of `find32`, carrying the best value seen so far. -/
def find32Loop {V : Type} (t : Tree V) (key mask : Nat) :
    Nat → Nat → Option Nat → Option V → Res (Option V)
  | 0, _, _, _ => .outOfFuel
  | fuel + 1, bit, node, value =>
    if node = none then .ok value
    else
      (deref t node).bind fun n =>
      let value1 := if n.value.isSome then n.value else value
      let node1 := if key &&& bit ≠ 0 then n.right else n.left
      if mask &&& bit = 0 then .ok value1
      else find32Loop t key mask fuel (bit >>> 1) node1 value1

/-- Go `func (tree *Tree) find32(key, mask uint32) (value interface{})`. -/
def find32 {V : Type} (t : Tree V) (key mask : Nat) : Res (Option V) :=
  find32Loop t key mask bitFuel startbit t.root none

/-! ## Text scanners -/

/-- Loop and tail of `loadip4`; `ip`, `oct` are `uint32`, `num` is a `byte`. -/
def loadip4Loop : List Char → Nat → Nat → Nat → Nat × Option Err
  | [], ip, oct, num =>
    if num ≠ 3 then (0, some .ErrBadIP)
    else if 0xffffffff - ip < oct then (0, some .ErrBadIP)
    else ((ip * 2 ^ 8 + oct) % 2 ^ 32, none)
  | b :: rest, ip, oct, num =>
    if b = '.' then
      if 0xffffffff - ip < oct then (0, some .ErrBadIP)
      else loadip4Loop rest ((ip * 2 ^ 8 + oct) % 2 ^ 32) 0 ((num + 1) % 256)
    else if '0'.toNat ≤ b.toNat ∧ b.toNat ≤ '9'.toNat then
      let oct1 := (oct * 10 + (b.toNat - '0'.toNat)) % 2 ^ 32
      if oct1 > 255 then (0, some .ErrBadIP)
      else loadip4Loop rest ip oct1 num
    else (0, some .ErrBadIP)

/-- Go `func loadip4(ipstr string) (uint32, error)`. -/
def loadip4 (ipstr : List Char) : Nat × Option Err :=
  loadip4Loop ipstr 0 0 0

/-- Go `strings.IndexByte`: index of the first occurrence, or `-1`. -/
def indexByte (s : List Char) (c : Char) : Int :=
  if c ∈ s then (s.indexOf c : Nat) else -1

/-- Go `x << s` on `uint32` with an unsigned count: zero once `s >= 32`. -/
def shl32 (x s : Nat) : Nat :=
  if 32 ≤ s then 0 else (x * 2 ^ s) % 2 ^ 32

/-- Mask-digit loop of `parsecidr4`; `none` is the early `ErrBadIP` return. -/
def maskDigits : List Char → Nat → Option Nat
  | [], mask => some mask
  | c :: rest, mask =>
    if c.toNat < '0'.toNat ∨ c.toNat > '9'.toNat then none
    else maskDigits rest ((mask * 10 + (c.toNat - '0'.toNat)) % 2 ^ 32)

/-- Go `func parsecidr4(cidr string) (uint32, uint32, error)`. -/
def parsecidr4 (cidr : List Char) : Nat × Nat × Option Err :=
  let p := indexByte cidr '/'
  if p > 0 then
    match maskDigits (cidr.drop (p.toNat + 1)) 0 with
    | none => (0, 0, some .ErrBadIP)
    | some m =>
      let mask := shl32 0xffffffff ((32 + 2 ^ 32 - m) % 2 ^ 32)
      match loadip4 (cidr.take p.toNat) with
      | (_, some e) => (0, 0, some e)
      | (ip, none) => (ip, mask, none)
  else
    match loadip4 cidr with
    | (_, some e) => (0, 0, some e)
    | (ip, none) => (ip, 0xffffffff, none)

/-! ## Public operations -/

/-- Go `func (tree *Tree) AddCIDR(cidr string, val interface{}) error`. -/
def AddCIDR {V : Type} (t : Tree V) (cidr : List Char) (val : Option V) :
    Res (Tree V × Option Err) :=
  match parsecidr4 cidr with
  | (_, _, some e) => .ok (t, some e)
  | (ip, mask, none) => insert32 t ip mask val

/-- Go `func (tree *Tree) DeleteCIDR(cidr string) error`. -/
def DeleteCIDR {V : Type} (t : Tree V) (cidr : List Char) : Res (Tree V × Option Err) :=
  match parsecidr4 cidr with
  | (_, _, some e) => .ok (t, some e)
  | (ip, mask, none) => delete32 t ip mask

/-- Go `func (tree *Tree) FindCIDR(cidr string) (interface{}, error)`. -/
def FindCIDR {V : Type} (t : Tree V) (cidr : List Char) : Res (Option V × Option Err) :=
  match parsecidr4 cidr with
  | (_, _, some e) => .ok (none, some e)
  | (ip, mask, none) => (find32 t ip mask).bind fun v => .ok (v, none)

/-- Inner loop of `NewTree`: inserts `key`, then `key += inc` until it wraps
to zero. -/
def preallocKeys {V : Type} (mask inc : Nat) : Nat → Tree V → Nat → Res (Tree V)
  | 0, _, _ => .outOfFuel
  | fuel + 1, t, key =>
    (insert32 t key mask none).bind fun (t1, _) =>
    let key1 := (key + inc) % 2 ^ 32
    if key1 = 0 then .ok t1
    else preallocKeys mask inc fuel t1 key1

/-- Outer loop of `NewTree`, run while `preallocate > 0`. -/
def preallocLevels {V : Type} : Nat → Tree V → Nat → Nat → Res (Tree V)
  | 0, t, _, _ => .ok t
  | preallocate + 1, t, inc, mask =>
    let mask1 := (mask >>> 1) ||| startbit
    (preallocKeys mask1 inc (2 ^ 32) t 0).bind fun t1 =>
    preallocLevels preallocate t1 (inc >>> 1) mask1

/-- Go `func NewTree(preallocate int) *Tree`. -/
def NewTree {V : Type} (preallocate : Int) : Res (Tree V) :=
  (newnode (⟨[], none, none, false⟩ : Tree V)).bind fun (t0, p) =>
  let tree : Tree V := { t0 with root := p }
  if preallocate = 0 then .ok tree
  else
    let preallocate1 : Int := if preallocate > 6 ∨ preallocate < 0 then 6 else preallocate
    preallocLevels preallocate1.toNat tree startbit 0

/-! ## Call sequences -/

/-- One call of the public interface. -/
inductive Call (V : Type) where
  | add (cidr : List Char) (val : Option V)
  | delete (cidr : List Char)
  | find (cidr : List Char)
deriving DecidableEq, Repr

/-- What a call returns: the error of `AddCIDR`/`DeleteCIDR`, or the pair
returned by `FindCIDR`. -/
inductive Reply (V : Type) where
  | error (e : Option Err)
  | found (v : Option V) (e : Option Err)
deriving DecidableEq, Repr

/-- Runs one call on a tree. -/
def call {V : Type} (t : Tree V) : Call V → Res (Tree V × Reply V)
  | .add cidr val => (AddCIDR t cidr val).bind fun (t1, e) => .ok (t1, .error e)
  | .delete cidr => (DeleteCIDR t cidr).bind fun (t1, e) => .ok (t1, .error e)
  | .find cidr => (FindCIDR t cidr).bind fun (v, e) => .ok (t, .found v e)

/-- Runs calls in order, collecting what each returns. -/
def calls {V : Type} : Tree V → List (Call V) → Res (Tree V × List (Reply V))
  | t, [] => .ok (t, [])
  | t, c :: cs =>
    (call t c).bind fun (t1, r) =>
    (calls t1 cs).bind fun (t2, rs) => .ok (t2, r :: rs)

/-- Calls run on a tree fresh from `NewTree`: the replies, in order. -/
def session {V : Type} (preallocate : Int) (cs : List (Call V)) : Res (List (Reply V)) :=
  (NewTree preallocate).bind fun t => (calls t cs).bind fun (_, rs) => .ok rs

/-! ## Well-formed CIDR blocks and the reference longest match -/

/-- The block `a.b.c.d/n`. -/
structure Cidr where
  a : Nat
  b : Nat
  c : Nat
  d : Nat
  n : Nat
deriving DecidableEq, Repr

/-- Octets in `0..255`, length in `0..32`. -/
def Cidr.WF (p : Cidr) : Prop :=
  p.a ≤ 255 ∧ p.b ≤ 255 ∧ p.c ≤ 255 ∧ p.d ≤ 255 ∧ p.n ≤ 32

instance (p : Cidr) : Decidable p.WF := by
  unfold Cidr.WF; infer_instance

/-- The 32-bit address `a*2^24 + b*2^16 + c*2^8 + d`. -/
def Cidr.key (p : Cidr) : Nat :=
  p.a * 2 ^ 24 + p.b * 2 ^ 16 + p.c * 2 ^ 8 + p.d

/-- Decimal text of the address part, `"a.b.c.d"`. -/
def Cidr.addrText (p : Cidr) : List Char :=
  Nat.toDigits 10 p.a ++ '.' :: (Nat.toDigits 10 p.b ++ '.' ::
    (Nat.toDigits 10 p.c ++ '.' :: Nat.toDigits 10 p.d))

/-- Decimal text `"a.b.c.d/n"`. -/
def Cidr.text (p : Cidr) : List Char :=
  p.addrText ++ '/' :: Nat.toDigits 10 p.n

/-- The 32-bit word whose `n` most significant bits are set. -/
def maskBits (n : Nat) : Nat := 2 ^ 32 - 2 ^ (32 - n)

/-- Block `(p, l)` covers the query `(a, L)`: it is no longer than the query
and agrees with the query address on its first `l` bits. -/
def covers (p l a L : Nat) : Prop :=
  l ≤ L ∧ p >>> (32 - l) = a >>> (32 - l)

instance (p l a L : Nat) : Decidable (covers p l a L) := by
  unfold covers; infer_instance

/-- Value of the first entry of `adds` (in call order) whose block has length
`l` and agrees with `a` on its first `l` bits. -/
def firstAdded {V : Type} (adds : List (Cidr × V)) (a l : Nat) : Option V :=
  (adds.find? fun e => decide (e.1.n = l ∧ e.1.key >>> (32 - l) = a >>> (32 - l))).map Prod.snd

/-- Reference longest match: tries the lengths `L, L-1, ..., 0` and answers
with the first added value at the first length where some added block agrees
with `a`. -/
def longestMatch {V : Type} (adds : List (Cidr × V)) (a : Nat) : Nat → Option V
  | 0 => firstAdded adds a 0
  | L + 1 =>
    match firstAdded adds a (L + 1) with
    | some v => some v
    | none => longestMatch adds a L

/-- The calls `AddCIDR(text, v)` for the entries of `adds`, in order. -/
def addCalls {V : Type} (adds : List (Cidr × V)) : List (Call V) :=
  adds.map fun e => .add e.1.text (some e.2)

/-! ## Proof vocabulary: bit paths through the heap -/

/-- The bit of `key` tested at depth `k`: `key & (startbit >> k) != 0`. -/
def keyBit (key k : Nat) : Bool := decide (key &&& (startbit >>> k) ≠ 0)

/-- The first `n` bits of `key`, most significant first. -/
def keyPath (key n : Nat) : List Bool := (List.range n).map (keyBit key)

/-- The child taken for a bit: `right` for 1, `left` for 0. -/
def child {V : Type} (n : Node V) (b : Bool) : Option Nat :=
  if b then n.right else n.left

/-- Node reached from `p` by following a bit path through the heap. -/
def walk {V : Type} (h : List (Node V)) : List Bool → Option Nat → Option Nat
  | [], p => p
  | b :: bs, p =>
    match p with
    | none => none
    | some i =>
      match h[i]? with
      | none => none
      | some n => walk h bs (child n b)

/-- Payload stored at the node a bit path leads to from the root. -/
def lookup {V : Type} (t : Tree V) (q : List Bool) : Option V :=
  (walk t.nodes q t.root).bind fun i => t.nodes[i]?.bind fun n => n.value

/-- Shape of a tree built by insertions only: the root is node 0, the free
list is empty, and every node sits at one bit path, its children one bit
further. -/
structure Shaped {V : Type} (t : Tree V) (path : Nat → List Bool) : Prop where
  root : t.root = some 0
  free : t.free = none
  size : 0 < t.nodes.length
  path0 : path 0 = []
  links : ∀ i n, t.nodes[i]? = some n → ∀ b j, child n b = some j →
    j < t.nodes.length ∧ path j = path i ++ [b]

/-- The loop of `find32` on payloads listed by depth: `f j` for
`j = k, ..., k+m`, a later payload replacing the best so far. -/
def scanUp {V : Type} (f : Nat → Option V) : Nat → Nat → Option V → Option V
  | 0, k, best => (f k).or best
  | m + 1, k, best => scanUp f m (k + 1) ((f k).or best)

/-- Deepest payload among `f L, ..., f 0`. -/
def scanDown {V : Type} (f : Nat → Option V) : Nat → Option V
  | 0 => f 0
  | L + 1 =>
    match f (L + 1) with
    | some v => some v
    | none => scanDown f L

/-- Digit run accepted by the octet accumulator of `loadip4`: the octet value
after the digits `ds`, or `none` when the loop leaves the digit branch or
returns `ErrBadIP`. -/
def octRun : List Char → Nat → Option Nat
  | [], oct => some oct
  | b :: rest, oct =>
    if b = '.' then none
    else if '0'.toNat ≤ b.toNat ∧ b.toNat ≤ '9'.toNat then
      let oct1 := (oct * 10 + (b.toNat - '0'.toNat)) % 2 ^ 32
      if oct1 > 255 then none else octRun rest oct1
    else none

/-- Node `nd` with the child slot for bit `b` assigned: `nd.right = c` for 1,
`nd.left = c` for 0. -/
def setChild {V : Type} (nd : Node V) (b : Bool) (c : Option Nat) : Node V :=
  if b then { nd with right := c } else { nd with left := c }

/-- Tree after one turn of the creation loop of `insert32` at node `i` for
bit `b`, when the free list is empty: a fresh node with parent `i` is
allocated and made the `b`-child of `i`. -/
def graft {V : Type} (t : Tree V) (i : Nat) (b : Bool) : Tree V :=
  { t with nodes :=
      t.nodes.set i (setChild (t.nodes.getD i zeroNode) b (some t.nodes.length))
        ++ [{ (zeroNode : Node V) with parent := some i }] }

/-- Value of the first entry of `adds` whose block spells the bit path `q`. -/
def addedAt {V : Type} (adds : List (Cidr × V)) (q : List Bool) : Option V :=
  (adds.find? fun e => decide (keyPath e.1.key e.1.n = q)).map Prod.snd

/-- A one-node tree whose root carries the payload 7. -/
def busyRoot : Tree Nat := ⟨[⟨none, none, none, some 7⟩], some 0, none, false⟩

/-- Tree left by calls run on a tree fresh from `NewTree`. -/
def treeAfter {V : Type} (preallocate : Int) (cs : List (Call V)) : Res (Tree V) :=
  (NewTree preallocate).bind fun t => (calls t cs).bind fun (t1, _) => .ok t1

/-- The tree reached from `NewTree(2)` by the calls of `hangCalls`: nodes 5
and 7 are each other's parent. -/
def hangTree : Tree Nat :=
  ⟨[⟨some 1, some 2, none, none⟩, ⟨some 3, some 4, some 0, none⟩,
    ⟨some 5, none, some 0, none⟩, ⟨none, none, some 1, none⟩,
    ⟨none, none, some 1, none⟩, ⟨none, some 7, some 7, none⟩,
    ⟨none, none, some 2, none⟩, ⟨some 9, none, some 5, none⟩,
    ⟨none, none, some 7, some 1⟩, ⟨none, none, some 7, some 2⟩],
   some 0, none, false⟩

/-- The calls that lead from `NewTree(2)` to `hangTree`. -/
def hangCalls : List (Call Nat) :=
  [.delete "128.0.0.0/2".toList, .delete "128.0.0.0/1".toList,
   .add "144.0.0.0/4".toList (some 1), .delete "192.0.0.0/3".toList,
   .add "168.0.0.0/6".toList (some 2)]

/-- The tree `hangTree` after two turns of the pruning loop started at node 5;
two further turns lead back to it. -/
def hangTree2 : Tree Nat :=
  ⟨[⟨some 1, some 2, none, none⟩, ⟨some 3, some 4, some 0, none⟩,
    ⟨some 5, none, some 0, none⟩, ⟨none, none, some 1, none⟩,
    ⟨none, none, some 1, none⟩, ⟨none, none, some 7, none⟩,
    ⟨none, none, some 2, none⟩, ⟨none, some 5, some 5, none⟩,
    ⟨none, none, some 7, some 1⟩, ⟨none, none, some 7, some 2⟩],
   some 0, some 7, false⟩

/-- The calls `AddCIDR(text, val)` for the entries of `adds`, in order; a
`none` value is a nil payload. -/
def addCallsAny {V : Type} (adds : List (Cidr × Option V)) : List (Call V) :=
  adds.map fun e => .add e.1.text e.2

/-- A node with its payload translated by `f`; the links are kept. -/
def mapNode {V W : Type} (f : V → W) (n : Node V) : Node W :=
  ⟨n.left, n.right, n.parent, n.value.map f⟩

/-- A tree with every payload translated by `f`. -/
def mapTree {V W : Type} (f : V → W) (t : Tree V) : Tree W :=
  ⟨t.nodes.map (mapNode f), t.root, t.free, t.has128⟩

/-- Depth that `NewTree(p)` preallocates: 0 for 0, `p` for `1..6`, 6 for every
other integer. -/
def clampDepth (p : Int) : Nat :=
  if p = 0 then 0 else if p > 6 ∨ p < 0 then 6 else p.toNat

/-- All bit paths of one length. -/
def pathsOfLen : Nat → List (List Bool)
  | 0 => [[]]
  | n + 1 => (pathsOfLen n).map (List.cons false) ++ (pathsOfLen n).map (List.cons true)

/-- All bit paths of length at most `d`. -/
def pathsUpTo : Nat → List (List Bool)
  | 0 => [[]]
  | d + 1 => pathsUpTo d ++ pathsOfLen (d + 1)

/-- Check that `t` is the complete tree of depth `d`: `2^(d+1) - 1` nodes, root
node 0, empty free list, no payload, child links inside the heap, one node at
every bit path of length at most `d` with its parent link naming the node one
bit up, no node at a longer path, different paths at different nodes, and
every node at some path. -/
def preallocOK {V : Type} (t : Tree V) (d : Nat) : Bool :=
  t.nodes.length == 2 ^ (d + 1) - 1
  && t.root == some 0
  && t.free == none
  && t.nodes.all (fun n => n.value.isNone)
  && t.nodes.all (fun n =>
      n.left.all (fun j => decide (j < t.nodes.length))
      && n.right.all (fun j => decide (j < t.nodes.length)))
  && (pathsUpTo d).all (fun q =>
      match walk t.nodes q t.root with
      | none => false
      | some i =>
        match t.nodes[i]? with
        | none => false
        | some nd => nd.parent == (if q = [] then none else walk t.nodes q.dropLast t.root))
  && (pathsOfLen (d + 1)).all (fun q => (walk t.nodes q t.root).isNone)
  && decide (((pathsUpTo d).map fun q => walk t.nodes q t.root).Nodup)
  && (List.range t.nodes.length).all (fun i =>
      (pathsUpTo d).any fun q => walk t.nodes q t.root == some i)

/-- The tree `t` is the complete tree of depth `d` with no payload: it has
`2^(d+1) - 1` nodes and an empty free list, every bit path of length at most
`d` leads from the root to a node whose parent link names the node one bit up,
no longer path leads anywhere, different paths lead to different nodes, and
every node is at some path. -/
structure Complete {V : Type} (t : Tree V) (d : Nat) : Prop where
  size : t.nodes.length = 2 ^ (d + 1) - 1
  root : t.root = some 0
  free : t.free = none
  empty : ∀ n ∈ t.nodes, n.value = none
  closed : ∀ n ∈ t.nodes, (∀ j, n.left = some j → j < t.nodes.length)
    ∧ (∀ j, n.right = some j → j < t.nodes.length)
  attached : ∀ q : List Bool, q.length ≤ d → ∃ i nd, walk t.nodes q t.root = some i
    ∧ t.nodes[i]? = some nd
    ∧ nd.parent = if q = [] then none else walk t.nodes q.dropLast t.root
  leaves : ∀ q : List Bool, d < q.length → walk t.nodes q t.root = none
  apart : ∀ q1 q2 : List Bool, q1.length ≤ d → q2.length ≤ d →
    walk t.nodes q1 t.root = walk t.nodes q2 t.root → q1 = q2
  every : ∀ i, i < t.nodes.length →
    ∃ q : List Bool, q.length ≤ d ∧ walk t.nodes q t.root = some i

/-! # Lemmas and theorems -/

variable {V : Type}

/-! ### Scanner lemmas -/

theorem loadip4Loop_octRun (ds : List Char) (rest : List Char) (ip num : Nat) :
    ∀ (oct x : Nat), octRun ds oct = some x →
      loadip4Loop (ds ++ rest) ip oct num = loadip4Loop rest ip x num := by
  induction ds with
  | nil => intro oct x h; simp [octRun] at h; subst h; rfl
  | cons b ds ih =>
    intro oct x h
    simp only [octRun] at h
    simp only [List.cons_append, loadip4Loop]
    split_ifs at h ⊢ with h1 h2 h3
    · exact ih _ _ h

set_option maxRecDepth 100000 in
theorem octRun_toDigits : ∀ x, x < 256 → octRun (Nat.toDigits 10 x) 0 = some x ∧ '/' ∉ Nat.toDigits 10 x ∧ Nat.toDigits 10 x ≠ [] := by
  decide

set_option maxRecDepth 100000 in
theorem maskDigits_toDigits : ∀ n, n < 33 → maskDigits (Nat.toDigits 10 n) 0 = some n ∧ shl32 0xffffffff ((32 + 2 ^ 32 - n) % 2 ^ 32) = maskBits n := by
  decide

theorem cidr_key_lt (p : Cidr) (h : p.WF) : p.key < 2 ^ 32 := by
  obtain ⟨ha, hb, hc, hd, _⟩ := h
  unfold Cidr.key; omega

theorem loadip4_addrText (p : Cidr) (h : p.WF) : loadip4 p.addrText = (p.key, none) := by
  obtain ⟨ha, hb, hc, hd, _⟩ := h
  have ea := (octRun_toDigits p.a (by omega)).1
  have eb := (octRun_toDigits p.b (by omega)).1
  have ec := (octRun_toDigits p.c (by omega)).1
  have ed := (octRun_toDigits p.d (by omega)).1
  unfold loadip4 Cidr.addrText
  rw [loadip4Loop_octRun _ _ _ _ _ _ ea]
  simp only [loadip4Loop, if_true]
  rw [if_neg (by omega)]
  rw [loadip4Loop_octRun _ _ _ _ _ _ eb]
  simp only [loadip4Loop, if_true]
  rw [if_neg (by omega)]
  rw [loadip4Loop_octRun _ _ _ _ _ _ ec]
  simp only [loadip4Loop, if_true]
  rw [if_neg (by omega)]
  have := loadip4Loop_octRun (Nat.toDigits 10 p.d) [] ((((0 * 2 ^ 8 + p.a) % 2 ^ 32 * 2 ^ 8 + p.b) % 2 ^ 32 * 2 ^ 8 + p.c) % 2 ^ 32) ((((0 + 1) % 256 + 1) % 256 + 1) % 256) _ _ ed
  rw [List.append_nil] at this
  rw [this]
  simp only [loadip4Loop]
  rw [if_neg (by omega), if_neg (by omega)]
  unfold Cidr.key
  congr 1
  omega

theorem slash_not_mem_addrText (p : Cidr) (h : p.WF) : '/' ∉ p.addrText := by
  obtain ⟨ha, hb, hc, hd, _⟩ := h
  have ea := (octRun_toDigits p.a (by omega)).2.1
  have eb := (octRun_toDigits p.b (by omega)).2.1
  have ec := (octRun_toDigits p.c (by omega)).2.1
  have ed := (octRun_toDigits p.d (by omega)).2.1
  unfold Cidr.addrText
  simp only [List.mem_append, List.mem_cons, not_or]
  refine ⟨ea, by decide, eb, by decide, ec, by decide, ed⟩

theorem addrText_length_pos (p : Cidr) (h : p.WF) : 0 < p.addrText.length := by
  have ea := (octRun_toDigits p.a (by have := h.1; omega)).2.2
  unfold Cidr.addrText
  rw [List.length_append]
  have : 0 < (Nat.toDigits 10 p.a).length := List.length_pos.mpr ea
  omega

theorem parsecidr4_text (p : Cidr) (h : p.WF) :
    parsecidr4 p.text = (p.key, maskBits p.n, none) := by
  have hs := slash_not_mem_addrText p h
  have hl := addrText_length_pos p h
  have hm := maskDigits_toDigits p.n (by have := h.2.2.2.2; omega)
  have hidx : indexByte p.text '/' = (p.addrText.length : Int) := by
    unfold indexByte Cidr.text
    rw [if_pos (by simp)]
    rw [List.indexOf_append_of_not_mem hs]
    simp
  unfold parsecidr4
  simp only [hidx]
  rw [if_pos (by exact_mod_cast hl)]
  simp only [Int.toNat_ofNat]
  have hdrop : List.drop (p.addrText.length + 1) p.text = Nat.toDigits 10 p.n := by
    unfold Cidr.text
    rw [List.drop_append_eq_append_drop]
    simp
  have htake : List.take p.addrText.length p.text = p.addrText := by
    unfold Cidr.text
    rw [List.take_append_eq_append_take]
    simp
  rw [hdrop, htake, hm.1, loadip4_addrText p h]
  simp only [hm.2]

theorem parsecidr4_addrText (p : Cidr) (h : p.WF) :
    parsecidr4 p.addrText = (p.key, 0xffffffff, none) := by
  have hs := slash_not_mem_addrText p h
  unfold parsecidr4
  have hidx : indexByte p.addrText '/' = -1 := by
    unfold indexByte
    rw [if_neg hs]
  simp only [hidx]
  rw [if_neg (by decide), loadip4_addrText p h]

/-! ### Bit lemmas -/

theorem startbit_shift_succ (k : Nat) : (startbit >>> k) >>> 1 = startbit >>> (k + 1) := by
  rw [← Nat.shiftRight_add]

set_option maxRecDepth 100000 in
theorem bit_and_mask_small : ∀ n, n < 33 → ∀ k, k < 33 →
    ((startbit >>> k) &&& maskBits n ≠ 0 ↔ k < n) := by
  decide

theorem bit_and_mask (n k : Nat) (hn : n ≤ 32) (hk : k ≤ 32) :
    ((startbit >>> k) &&& maskBits n ≠ 0 ↔ k < n) :=
  bit_and_mask_small n (by omega) k (by omega)

theorem startbit_shift (k : Nat) (hk : k ≤ 31) : startbit >>> k = 2 ^ (31 - k) := by
  rw [Nat.shiftRight_eq_div_pow]
  have : startbit = 2 ^ 31 := by decide
  rw [this, Nat.pow_div hk (by decide)]

theorem keyBit_eq_testBit (key k : Nat) (hk : k ≤ 31) :
    keyBit key k = key.testBit (31 - k) := by
  unfold keyBit
  rw [startbit_shift k hk, Nat.and_two_pow]
  cases h : key.testBit (31 - k) <;> simp

theorem keyPath_length (key n : Nat) : (keyPath key n).length = n := by
  simp [keyPath]

theorem keyPath_succ (key n : Nat) : keyPath key (n + 1) = keyPath key n ++ [keyBit key n] := by
  simp [keyPath, List.range_succ]

theorem keyPath_eq_iff (p a l : Nat) :
    keyPath p l = keyPath a l ↔ ∀ k, k < l → keyBit p k = keyBit a k := by
  unfold keyPath
  constructor
  · intro h k hk
    have := congrArg (fun xs => xs[k]?) h
    simpa [List.getElem?_map, List.getElem?_range hk] using this
  · intro h
    apply List.map_congr_left
    intro k hk
    exact h k (List.mem_range.mp hk)

theorem shift_eq_iff (p a l : Nat) (hp : p < 2 ^ 32) (ha : a < 2 ^ 32) (hl : l ≤ 32) :
    p >>> (32 - l) = a >>> (32 - l) ↔ ∀ k, k < l → keyBit p k = keyBit a k := by
  constructor
  · intro h k hk
    rw [keyBit_eq_testBit _ _ (by omega), keyBit_eq_testBit _ _ (by omega)]
    have := congrArg (fun x => x.testBit (l - 1 - k)) h
    simp only [Nat.testBit_shiftRight] at this
    have e : 32 - l + (l - 1 - k) = 31 - k := by omega
    rwa [e] at this
  · intro h
    apply Nat.eq_of_testBit_eq
    intro i
    rw [Nat.testBit_shiftRight, Nat.testBit_shiftRight]
    by_cases hi : 32 - l + i < 32
    · have := h (31 - (32 - l + i)) (by omega)
      rw [keyBit_eq_testBit _ _ (by omega), keyBit_eq_testBit _ _ (by omega)] at this
      have e : 31 - (31 - (32 - l + i)) = 32 - l + i := by omega
      rwa [e] at this
    · rw [Nat.testBit_lt_two_pow (lt_of_lt_of_le hp (Nat.pow_le_pow_right (by decide) (by omega))),
        Nat.testBit_lt_two_pow (lt_of_lt_of_le ha (Nat.pow_le_pow_right (by decide) (by omega)))]

theorem keyPath_eq_keyPath (p l a m : Nat) (hp : p < 2 ^ 32) (ha : a < 2 ^ 32) (hl : l ≤ 32) :
    keyPath p l = keyPath a m ↔ (l = m ∧ p >>> (32 - m) = a >>> (32 - m)) := by
  constructor
  · intro h
    have hlen := congrArg List.length h
    rw [keyPath_length, keyPath_length] at hlen
    subst hlen
    exact ⟨rfl, (shift_eq_iff p a l hp ha hl).mpr ((keyPath_eq_iff p a l).mp h)⟩
  · rintro ⟨rfl, h⟩
    exact (keyPath_eq_iff p a l).mpr ((shift_eq_iff p a l hp ha hl).mp h)

/-! ### Outcome and pointer lemmas -/

@[simp] theorem bind_ok {α β : Type} (a : α) (f : α → Res β) : (Res.ok a).bind f = f a := rfl

theorem deref_some (t : Tree V) (i : Nat) (n : Node V) (h : t.nodes[i]? = some n) :
    deref t (some i) = .ok n := by
  simp [deref, h]

theorem modify_some (t : Tree V) (i : Nat) (n : Node V) (f : Node V → Node V)
    (h : t.nodes[i]? = some n) :
    modify t (some i) f = .ok { t with nodes := t.nodes.set i (f n) } := by
  simp [modify, h]

/-! ### Walking bit paths -/

theorem walk_none (h : List (Node V)) (q : List Bool) : walk h q none = none := by
  cases q <;> rfl

theorem walk_append (h : List (Node V)) (q r : List Bool) (p : Option Nat) :
    walk h (q ++ r) p = walk h r (walk h q p) := by
  induction q generalizing p with
  | nil => rfl
  | cons b q ih =>
    cases p with
    | none => simp [walk, walk_none]
    | some i =>
      simp only [List.cons_append, walk]
      cases h[i]? with
      | none => simp [walk_none]
      | some n => exact ih _

theorem walk_snoc (h : List (Node V)) (q : List Bool) (b : Bool) (i : Nat) (n : Node V)
    (hw : walk h q (some 0) = some i) (hn : h[i]? = some n) :
    walk h (q ++ [b]) (some 0) = child n b := by
  rw [walk_append, hw]
  simp [walk, hn]

theorem Shaped.walk_path {t : Tree V} {path : Nat → List Bool} (hs : Shaped t path)
    (q : List Bool) : ∀ i j, i < t.nodes.length → walk t.nodes q (some i) = some j →
      j < t.nodes.length ∧ path j = path i ++ q := by
  induction q with
  | nil => intro i j hi h; simp [walk] at h; subst h; simp [hi]
  | cons b q ih =>
    intro i j hi h
    simp only [walk] at h
    obtain ⟨n, hn⟩ : ∃ n, t.nodes[i]? = some n := ⟨t.nodes[i], List.getElem?_eq_getElem hi⟩
    rw [hn] at h
    simp only at h
    cases hc : child n b with
    | none => rw [hc, walk_none] at h; cases h
    | some c =>
      rw [hc] at h
      obtain ⟨hc1, hc2⟩ := hs.links i n hn b c hc
      obtain ⟨h1, h2⟩ := ih c j hc1 h
      exact ⟨h1, by rw [h2, hc2]; simp⟩

theorem Shaped.walk_root {t : Tree V} {path : Nat → List Bool} (hs : Shaped t path)
    (q : List Bool) (j : Nat) (h : walk t.nodes q (some 0) = some j) :
    j < t.nodes.length ∧ path j = q := by
  have := hs.walk_path q 0 j hs.size h
  rw [hs.path0] at this
  simpa using this

/-! ### The find loop -/

theorem scanUp_none (f : Nat → Option V) (m k : Nat) (best : Option V)
    (h : ∀ j, k ≤ j → f j = none) : scanUp f m k best = best := by
  induction m generalizing k best with
  | zero => simp [scanUp, h k (le_refl k)]
  | succ m ih =>
    simp only [scanUp, h k (le_refl k), Option.none_or]
    exact ih (k + 1) best (fun j hj => h j (by omega))

theorem scanUp_eq (f : Nat → Option V) (m k : Nat) (best : Option V) :
    scanUp f m k best = (scanUp f m k none).or best := by
  induction m generalizing k best with
  | zero => simp [scanUp]
  | succ m ih =>
    simp only [scanUp]
    rw [ih (k + 1) ((f k).or best), ih (k + 1) ((f k).or none)]
    cases scanUp f m (k + 1) none <;> cases f k <;> simp

theorem scanUp_last (f : Nat → Option V) (m k : Nat) (best : Option V) :
    scanUp f (m + 1) k best = (f (k + m + 1)).or (scanUp f m k best) := by
  induction m generalizing k best with
  | zero => simp [scanUp]
  | succ m ih =>
    rw [scanUp, ih (k + 1) ((f k).or best)]
    have e : k + 1 + m + 1 = k + (m + 1) + 1 := by omega
    rw [e]
    rfl

theorem scanUp_scanDown (f : Nat → Option V) (L : Nat) :
    scanUp f L 0 none = scanDown f L := by
  induction L with
  | zero => simp [scanUp, scanDown]
  | succ L ih =>
    rw [scanUp_last, ih, scanDown]
    simp only [Nat.zero_add]
    cases f (L + 1) <;> simp

theorem find32Loop_shaped {t : Tree V} {path : Nat → List Bool} (hs : Shaped t path)
    (key L : Nat) (hL : L ≤ 32) :
    ∀ (m k fuel : Nat) (best : Option V), k + m = L → m < fuel →
      find32Loop t key (maskBits L) fuel (startbit >>> k)
        (walk t.nodes (keyPath key k) (some 0)) best
      = .ok (scanUp (fun l => lookup t (keyPath key l)) m k best) := by
  intro m
  induction m with
  | zero =>
    intro k fuel best hk hf
    obtain ⟨fuel, rfl⟩ : ∃ f, fuel = f + 1 := ⟨fuel - 1, by omega⟩
    simp only [Nat.add_zero] at hk
    subst hk
    simp only [find32Loop, scanUp]
    cases hw : walk t.nodes (keyPath key k) (some 0) with
    | none => simp [lookup, hs.root, hw]
    | some i =>
      have hi := (hs.walk_root _ _ hw).1
      have hn : t.nodes[i]? = some t.nodes[i] := List.getElem?_eq_getElem hi
      have hm : maskBits k &&& (startbit >>> k) = 0 := by
        have := (bit_and_mask k k hL (by omega)).not
        simp only [lt_irrefl, not_false_eq_true, iff_true, not_not] at this
        rw [Nat.land_comm]; exact this
      simp only [deref_some t i _ hn, bind_ok, hm, if_true, lookup, hs.root, hw, Option.some_bind,
        hn, reduceCtorEq, if_false]
      cases hv : (t.nodes[i]).value <;> simp [hv]
  | succ m ih =>
    intro k fuel best hk hf
    obtain ⟨fuel, rfl⟩ : ∃ f, fuel = f + 1 := ⟨fuel - 1, by omega⟩
    simp only [find32Loop, scanUp]
    cases hw : walk t.nodes (keyPath key k) (some 0) with
    | none =>
      simp only [if_true]
      have hnone : ∀ j, k ≤ j → lookup t (keyPath key j) = none := by
        intro j hj
        obtain ⟨d, rfl⟩ : ∃ d, j = k + d := ⟨j - k, by omega⟩
        have : keyPath key (k + d) = keyPath key k ++ (List.range' k d).map (keyBit key) := by
          simp [keyPath, List.range_add, List.range'_eq_map_range]
        simp [lookup, hs.root, this, walk_append, hw, walk_none]
      rw [hnone k (le_refl k)]
      simp only [Option.none_or]
      rw [scanUp_none _ _ _ _ (fun j hj => hnone j (by omega))]
    | some i =>
      have hi := (hs.walk_root _ _ hw).1
      have hn : t.nodes[i]? = some t.nodes[i] := List.getElem?_eq_getElem hi
      have hm : maskBits L &&& (startbit >>> k) ≠ 0 := by
        rw [Nat.land_comm]; exact (bit_and_mask L k hL (by omega)).mpr (by omega)
      have hstep := ih (k + 1) fuel
        ((lookup t (keyPath key k)).or best) (by omega) (by omega)
      rw [keyPath_succ, walk_snoc _ _ _ i _ hw hn] at hstep
      simp only [deref_some t i _ hn, bind_ok, hm, if_false, reduceCtorEq, startbit_shift_succ]
      have hv : (if (t.nodes[i]).value.isSome = true then (t.nodes[i]).value else best)
          = (lookup t (keyPath key k)).or best := by
        simp only [lookup, hs.root, hw, Option.some_bind, hn]
        cases (t.nodes[i]).value <;> simp
      have hc : (if key &&& startbit >>> k ≠ 0 then (t.nodes[i]).right else (t.nodes[i]).left)
          = child (t.nodes[i]) (keyBit key k) := by
        unfold child keyBit
        by_cases hb : key &&& startbit >>> k ≠ 0 <;> simp [hb]
      rw [hv, hc]
      exact hstep

theorem find32_shaped {t : Tree V} {path : Nat → List Bool} (hs : Shaped t path)
    (key L : Nat) (hL : L ≤ 32) :
    find32 t key (maskBits L) = .ok (scanDown (fun l => lookup t (keyPath key l)) L) := by
  unfold find32
  have := find32Loop_shaped hs key L hL L 0 bitFuel none (by omega) (by unfold bitFuel; omega)
  rw [scanUp_scanDown] at this
  rw [hs.root]
  simpa [keyPath, walk] using this

/-! ### The descent of insert32 -/

theorem child_eq_ite (nd : Node V) (key k : Nat) :
    (if key &&& startbit >>> k ≠ 0 then nd.right else nd.left) = child nd (keyBit key k) := by
  unfold child keyBit
  by_cases hb : key &&& startbit >>> k ≠ 0 <;> simp [hb]

theorem insertDescend_shaped {t : Tree V} {path : Nat → List Bool} (hs : Shaped t path)
    (key n : Nat) (hn : n ≤ 32) :
    ∀ (m k fuel i : Nat), k + m = n → m < fuel →
      walk t.nodes (keyPath key k) (some 0) = some i →
      ∃ k1 i1 next,
        insertDescend t key (maskBits n) fuel (startbit >>> k) (some i) (some i)
          = .ok (startbit >>> k1, some i1, next)
        ∧ k1 ≤ n ∧ walk t.nodes (keyPath key k1) (some 0) = some i1
        ∧ ((k1 = n ∧ next = some i1) ∨
           (k1 < n ∧ next = none ∧
             ∀ nd, t.nodes[i1]? = some nd → child nd (keyBit key k1) = none)) := by
  intro m
  induction m with
  | zero =>
    intro k fuel i hk hf hw
    obtain ⟨fuel, rfl⟩ : ∃ f, fuel = f + 1 := ⟨fuel - 1, by omega⟩
    simp only [Nat.add_zero] at hk
    subst hk
    have hm : ¬ (startbit >>> k &&& maskBits k ≠ 0) := by
      rw [bit_and_mask k k hn hn]; omega
    refine ⟨k, i, some i, ?_, le_refl _, hw, Or.inl ⟨rfl, rfl⟩⟩
    simp only [insertDescend, hm, if_false]
  | succ m ih =>
    intro k fuel i hk hf hw
    obtain ⟨fuel, rfl⟩ : ∃ f, fuel = f + 1 := ⟨fuel - 1, by omega⟩
    have hi := (hs.walk_root _ _ hw).1
    have hnd : t.nodes[i]? = some t.nodes[i] := List.getElem?_eq_getElem hi
    have hm : startbit >>> k &&& maskBits n ≠ 0 :=
      (bit_and_mask n k hn (by omega)).mpr (by omega)
    simp only [insertDescend, hm, if_true, deref_some t i _ hnd, bind_ok, child_eq_ite,
      startbit_shift_succ]
    cases hc : child t.nodes[i] (keyBit key k) with
    | none =>
      refine ⟨k, i, none, by simp [hm], by omega, hw, Or.inr ⟨by omega, rfl, ?_⟩⟩
      intro nd hnd2
      rw [hnd] at hnd2
      cases hnd2
      exact hc
    | some c =>
      have hw1 : walk t.nodes (keyPath key (k + 1)) (some 0) = some c := by
        rw [keyPath_succ, walk_snoc _ _ _ i _ hw hnd, hc]
      obtain ⟨k1, i1, next, h1, h2, h3, h4⟩ := ih (k + 1) fuel c (by omega) (by omega) hw1
      refine ⟨k1, i1, next, ?_, h2, h3, h4⟩
      simpa [hm] using h1

/-! ### Grafting one fresh node -/

theorem child_setChild_same (nd : Node V) (b : Bool) (c : Option Nat) :
    child (setChild nd b c) b = c := by
  cases b <;> simp [child, setChild]

theorem child_setChild_other (nd : Node V) (b b1 : Bool) (c : Option Nat) (h : b1 ≠ b) :
    child (setChild nd b c) b1 = child nd b1 := by
  cases b <;> cases b1 <;> simp_all [child, setChild]

theorem value_setChild (nd : Node V) (b : Bool) (c : Option Nat) :
    (setChild nd b c).value = nd.value := by
  cases b <;> rfl

theorem graft_length (t : Tree V) (i : Nat) (b : Bool) :
    (graft t i b).nodes.length = t.nodes.length + 1 := by
  simp [graft]

theorem graft_get_new (t : Tree V) (i : Nat) (b : Bool) :
    (graft t i b).nodes[t.nodes.length]? = some { (zeroNode : Node V) with parent := some i } := by
  simp [graft, List.getElem?_append_right]

theorem graft_get_at (t : Tree V) (i : Nat) (b : Bool) (nd : Node V)
    (h : t.nodes[i]? = some nd) :
    (graft t i b).nodes[i]? = some (setChild nd b (some t.nodes.length)) := by
  have hi : i < t.nodes.length := by
    by_contra hc
    rw [List.getElem?_eq_none (by omega)] at h
    cases h
  have hd : t.nodes.getD i zeroNode = nd := by
    rw [List.getD_eq_getElem?_getD, h]; rfl
  simp only [graft, hd]
  rw [List.getElem?_append_left (by simpa using hi)]
  simp [List.getElem?_set_self, hi]

theorem graft_get_old (t : Tree V) (i : Nat) (b : Bool) (x : Nat)
    (hx : x < t.nodes.length) (hxi : x ≠ i) :
    (graft t i b).nodes[x]? = t.nodes[x]? := by
  simp only [graft]
  rw [List.getElem?_append_left (by simpa using hx)]
  rw [List.getElem?_set_ne (Ne.symm hxi)]

theorem insertCreate_step (t : Tree V) (key mask fuel bit i : Nat) (nd : Node V)
    (hfree : t.free = none) (hnd : t.nodes[i]? = some nd) (hbit : bit &&& mask ≠ 0) :
    insertCreate key mask (fuel + 1) t bit (some i)
      = insertCreate key mask fuel (graft t i (decide (key &&& bit ≠ 0))) (bit >>> 1)
          (some t.nodes.length) := by
  have hi : i < t.nodes.length := by
    by_contra hc
    rw [List.getElem?_eq_none (by omega)] at hnd
    cases hnd
  have hd : t.nodes.getD i zeroNode = nd := by
    rw [List.getD_eq_getElem?_getD, hnd]; rfl
  have h1 : (t.nodes ++ [(zeroNode : Node V)])[t.nodes.length]? = some zeroNode := by
    simp [List.getElem?_append_right]
  simp only [insertCreate, hbit, if_true, newnode, hfree, bind_ok]
  rw [modify_some _ _ _ _ h1]
  simp only [bind_ok]
  have h2 : ((t.nodes ++ [(zeroNode : Node V)]).set t.nodes.length
      { (zeroNode : Node V) with parent := some i })[i]? = some nd := by
    rw [List.getElem?_set_ne (by omega), List.getElem?_append_left hi, hnd]
  rw [modify_some _ _ _ _ h2]
  simp only [bind_ok]
  simp only [graft, hd, setChild]
  have e1 : (t.nodes ++ [(zeroNode : Node V)]).set t.nodes.length
      { (zeroNode : Node V) with parent := some i }
      = t.nodes ++ [{ (zeroNode : Node V) with parent := some i }] := by
    rw [List.set_append_right _ _ (le_refl _)]
    simp
  rw [e1, List.set_append_left _ _ hi]
  by_cases hb : key &&& bit ≠ 0 <;> simp [hb, hbit, hfree]

theorem graft_shaped {t : Tree V} {path : Nat → List Bool} (hs : Shaped t path)
    (i : Nat) (b : Bool) (hi : i < t.nodes.length) :
    Shaped (graft t i b) (Function.update path t.nodes.length (path i ++ [b])) := by
  have hnd : t.nodes[i]? = some t.nodes[i] := List.getElem?_eq_getElem hi
  refine ⟨hs.root, hs.free, by rw [graft_length]; omega, ?_, ?_⟩
  · rw [Function.update_noteq (by have := hs.size; omega)]
    exact hs.path0
  · intro x n hx b1 j hj
    rw [graft_length]
    by_cases hxl : x = t.nodes.length
    · subst hxl
      rw [graft_get_new] at hx
      cases hx
      cases b1 <;> simp [child, zeroNode] at hj
    · have hxlt : x < t.nodes.length := by
        by_contra hc
        have : (graft t i b).nodes.length ≤ x := by rw [graft_length]; omega
        rw [List.getElem?_eq_none this] at hx
        cases hx
      rw [Function.update_noteq hxl]
      by_cases hxi : x = i
      · subst hxi
        rw [graft_get_at t x b _ hnd] at hx
        cases hx
        by_cases hb : b1 = b
        · subst hb
          rw [child_setChild_same] at hj
          cases hj
          exact ⟨by omega, by simp⟩
        · rw [child_setChild_other _ _ _ _ hb] at hj
          obtain ⟨h1, h2⟩ := hs.links x _ hnd b1 j hj
          exact ⟨by omega, by rw [Function.update_noteq (by omega)]; exact h2⟩
      · rw [graft_get_old t i b x hxlt hxi] at hx
        obtain ⟨h1, h2⟩ := hs.links x n hx b1 j hj
        exact ⟨by omega, by rw [Function.update_noteq (by omega)]; exact h2⟩

theorem graft_walk_mono {t : Tree V} {path : Nat → List Bool} (hs : Shaped t path)
    (i : Nat) (b : Bool) (hi : i < t.nodes.length)
    (hc : child t.nodes[i] b = none) (q : List Bool) :
    ∀ x j, x < t.nodes.length → walk t.nodes q (some x) = some j →
      walk (graft t i b).nodes q (some x) = some j := by
  have hnd : t.nodes[i]? = some t.nodes[i] := List.getElem?_eq_getElem hi
  induction q with
  | nil => intro x j _ h; exact h
  | cons b1 q ih =>
    intro x j hx h
    have hxn : t.nodes[x]? = some t.nodes[x] := List.getElem?_eq_getElem hx
    simp only [walk, hxn] at h
    cases hch : child t.nodes[x] b1 with
    | none => rw [hch, walk_none] at h; cases h
    | some c =>
      rw [hch] at h
      have hcl := (hs.links x _ hxn b1 c hch).1
      by_cases hxi : x = i
      · subst hxi
        have hb : b1 ≠ b := by
          intro e; subst e; rw [hc] at hch; cases hch
        simp only [walk, graft_get_at t x b _ hnd, child_setChild_other _ _ _ _ hb, hch]
        exact ih c j hcl h
      · simp only [walk, graft_get_old t i b x hx hxi, hxn, hch]
        exact ih c j hcl h

theorem graft_walk_new {t : Tree V} {path : Nat → List Bool} (hs : Shaped t path)
    (i : Nat) (b : Bool) (hi : i < t.nodes.length) (q : List Bool) :
    ∀ x j, x < t.nodes.length → walk (graft t i b).nodes q (some x) = some j →
      walk t.nodes q (some x) = some j ∨ j = t.nodes.length := by
  have hnd : t.nodes[i]? = some t.nodes[i] := List.getElem?_eq_getElem hi
  induction q with
  | nil => intro x j _ h; exact Or.inl h
  | cons b1 q ih =>
    intro x j hx h
    have hxn : t.nodes[x]? = some t.nodes[x] := List.getElem?_eq_getElem hx
    by_cases hxi : x = i
    · subst hxi
      simp only [walk, graft_get_at t x b _ hnd] at h
      by_cases hb : b1 = b
      · subst hb
        rw [child_setChild_same] at h
        cases q with
        | nil => simp only [walk] at h; cases h; exact Or.inr rfl
        | cons b2 q =>
          simp only [walk, graft_get_new] at h
          cases b2 <;> simp [child, zeroNode, walk_none] at h
      · rw [child_setChild_other _ _ _ _ hb] at h
        simp only [walk, hxn]
        cases hch : child t.nodes[x] b1 with
        | none => rw [hch, walk_none] at h; cases h
        | some c =>
          rw [hch] at h
          exact ih c j (hs.links x _ hxn b1 c hch).1 h
    · simp only [walk, graft_get_old t i b x hx hxi, hxn] at h
      simp only [walk, hxn]
      cases hch : child t.nodes[x] b1 with
      | none => rw [hch, walk_none] at h; cases h
      | some c =>
        rw [hch] at h
        exact ih c j (hs.links x _ hxn b1 c hch).1 h

theorem graft_lookup {t : Tree V} {path : Nat → List Bool} (hs : Shaped t path)
    (i : Nat) (b : Bool) (hi : i < t.nodes.length)
    (hc : child t.nodes[i] b = none) (q : List Bool) :
    lookup (graft t i b) q = lookup t q := by
  have hnd : t.nodes[i]? = some t.nodes[i] := List.getElem?_eq_getElem hi
  have hroot : (graft t i b).root = some 0 := hs.root
  unfold lookup
  rw [hroot, hs.root]
  cases hw : walk t.nodes q (some 0) with
  | some j =>
    rw [graft_walk_mono hs i b hi hc q 0 j hs.size hw]
    have hj := (hs.walk_root q j hw).1
    simp only [Option.some_bind]
    by_cases hji : j = i
    · subst hji
      rw [graft_get_at t j b _ hnd, hnd]
      simp [value_setChild]
    · rw [graft_get_old t i b j hj hji]
  | none =>
    cases hw2 : walk (graft t i b).nodes q (some 0) with
    | none => rfl
    | some j =>
      rcases graft_walk_new hs i b hi q 0 j hs.size hw2 with h | h
      · rw [hw] at h; cases h
      · subst h
        simp [graft_get_new, zeroNode]

theorem graft_walk_snoc {t : Tree V} {path : Nat → List Bool} (hs : Shaped t path)
    (i : Nat) (b : Bool) (hi : i < t.nodes.length)
    (hc : child t.nodes[i] b = none) (q : List Bool)
    (hw : walk t.nodes q (some 0) = some i) :
    walk (graft t i b).nodes (q ++ [b]) (some 0) = some t.nodes.length := by
  have hnd : t.nodes[i]? = some t.nodes[i] := List.getElem?_eq_getElem hi
  rw [walk_snoc _ _ _ i _ (graft_walk_mono hs i b hi hc q 0 i hs.size hw)
    (graft_get_at t i b _ hnd), child_setChild_same]

/-! ### The creation loop of insert32 -/

theorem insertCreate_shaped (key n : Nat) (hn : n ≤ 32) :
    ∀ (m k fuel : Nat) (t : Tree V) (path : Nat → List Bool) (i : Nat),
      Shaped t path → k + m = n → m < fuel →
      walk t.nodes (keyPath key k) (some 0) = some i →
      (m ≠ 0 → ∀ nd, t.nodes[i]? = some nd → child nd (keyBit key k) = none) →
      ∃ t1 path1 i1,
        insertCreate key (maskBits n) fuel t (startbit >>> k) (some i) = .ok (t1, some i1)
        ∧ Shaped t1 path1
        ∧ walk t1.nodes (keyPath key n) (some 0) = some i1
        ∧ ∀ q, lookup t1 q = lookup t q := by
  intro m
  induction m with
  | zero =>
    intro k fuel t path i hs hk hf hw _
    obtain ⟨fuel, rfl⟩ : ∃ f, fuel = f + 1 := ⟨fuel - 1, by omega⟩
    simp only [Nat.add_zero] at hk
    subst hk
    have hm : ¬ (startbit >>> k &&& maskBits k ≠ 0) := by
      rw [bit_and_mask k k hn hn]; omega
    exact ⟨t, path, i, by simp only [insertCreate, hm, if_false], hs, hw, fun _ => rfl⟩
  | succ m ih =>
    intro k fuel t path i hs hk hf hw hc
    obtain ⟨fuel, rfl⟩ : ∃ f, fuel = f + 1 := ⟨fuel - 1, by omega⟩
    have hi := (hs.walk_root _ _ hw).1
    have hnd : t.nodes[i]? = some t.nodes[i] := List.getElem?_eq_getElem hi
    have hm : startbit >>> k &&& maskBits n ≠ 0 :=
      (bit_and_mask n k hn (by omega)).mpr (by omega)
    have hc1 : child t.nodes[i] (keyBit key k) = none := hc (by omega) _ hnd
    rw [insertCreate_step t key _ fuel _ i _ hs.free hnd hm, startbit_shift_succ]
    have hs1 := graft_shaped hs i (keyBit key k) hi
    have hw1 : walk (graft t i (keyBit key k)).nodes (keyPath key (k + 1)) (some 0)
        = some t.nodes.length := by
      rw [keyPath_succ]
      exact graft_walk_snoc hs i _ hi hc1 _ hw
    have hfresh : m ≠ 0 → ∀ nd, (graft t i (keyBit key k)).nodes[t.nodes.length]? = some nd →
        child nd (keyBit key (k + 1)) = none := by
      intro _ nd h
      rw [graft_get_new] at h
      cases h
      cases keyBit key (k + 1) <;> simp [child, zeroNode]
    obtain ⟨t1, path1, i1, h1, h2, h3, h4⟩ :=
      ih (k + 1) fuel (graft t i (keyBit key k)) _ t.nodes.length hs1 (by omega) (by omega)
        hw1 hfresh
    refine ⟨t1, path1, i1, ?_, h2, h3, ?_⟩
    · exact h1
    · intro q
      rw [h4 q, graft_lookup hs i _ hi hc1 q]

/-! ### Assigning a payload -/

theorem walk_set_value (h : List (Node V)) (i : Nat) (nd : Node V) (v : Option V)
    (hnd : h[i]? = some nd) (q : List Bool) :
    ∀ p, walk (h.set i { nd with value := v }) q p = walk h q p := by
  induction q with
  | nil => intro p; rfl
  | cons b q ih =>
    intro p
    cases p with
    | none => rfl
    | some x =>
      simp only [walk]
      by_cases hx : x = i
      · subst hx
        have hlt : x < h.length := by
          by_contra hc
          rw [List.getElem?_eq_none (by omega)] at hnd
          cases hnd
        rw [List.getElem?_set_self hlt, hnd]
        simp only
        have : child { nd with value := v } b = child nd b := by
          cases b <;> rfl
        rw [this]
        exact ih _
      · rw [List.getElem?_set_ne (Ne.symm hx)]
        cases h[x]? with
        | none => rfl
        | some n => exact ih _

theorem setValue_shaped {t : Tree V} {path : Nat → List Bool} (hs : Shaped t path)
    (i : Nat) (nd : Node V) (v : Option V) (hnd : t.nodes[i]? = some nd) :
    Shaped { t with nodes := t.nodes.set i { nd with value := v } } path := by
  refine ⟨hs.root, hs.free, by simpa using hs.size, hs.path0, ?_⟩
  intro x n hx b j hj
  simp only [List.length_set]
  by_cases hxi : x = i
  · subst hxi
    have hlt : x < t.nodes.length := by
      by_contra hc
      rw [List.getElem?_eq_none (by omega)] at hnd
      cases hnd
    simp only [List.getElem?_set_self hlt] at hx
    cases hx
    have : child { nd with value := v } b = child nd b := by
      cases b <;> rfl
    rw [this] at hj
    exact hs.links x nd hnd b j hj
  · simp only [List.getElem?_set_ne (Ne.symm hxi)] at hx
    exact hs.links x n hx b j hj

theorem setValue_lookup {t : Tree V} {path : Nat → List Bool} (hs : Shaped t path)
    (i : Nat) (nd : Node V) (v : Option V) (hnd : t.nodes[i]? = some nd)
    (p : List Bool) (hw : walk t.nodes p (some 0) = some i) (q : List Bool) :
    lookup { t with nodes := t.nodes.set i { nd with value := v } } q
      = if q = p then v else lookup t q := by
  have hlt : i < t.nodes.length := (hs.walk_root p i hw).1
  have hpi : path i = p := (hs.walk_root p i hw).2
  unfold lookup
  simp only [walk_set_value t.nodes i nd v hnd q, hs.root]
  cases hq : walk t.nodes q (some 0) with
  | none =>
    have : q ≠ p := by
      intro e; subst e; rw [hw] at hq; cases hq
    simp [this]
  | some j =>
    simp only [Option.some_bind]
    by_cases hji : j = i
    · subst hji
      have : q = p := by rw [← hpi, (hs.walk_root q j hq).2]
      simp [this, List.getElem?_set_self hlt]
    · have : q ≠ p := by
        intro e; subst e; rw [hw] at hq; cases hq; exact hji rfl
      rw [List.getElem?_set_ne (Ne.symm hji)]
      simp [this]

/-! ### insert32 on insertion-only trees -/

theorem insert32_shaped {t : Tree V} {path : Nat → List Bool} (hs : Shaped t path)
    (key n : Nat) (hn : n ≤ 32) (v : V) :
    ∃ t1 path1 e,
      insert32 t key (maskBits n) (some v) = .ok (t1, e)
      ∧ Shaped t1 path1
      ∧ ∀ q, lookup t1 q
          = (lookup t q).or (if q = keyPath key n then some v else none) := by
  have hw0 : walk t.nodes (keyPath key 0) (some 0) = some 0 := rfl
  obtain ⟨k1, i1, next, hd, hk1, hw1, hcase⟩ :=
    insertDescend_shaped hs key n hn n 0 bitFuel 0 (by omega) (by unfold bitFuel; omega) hw0
  have hi1 := (hs.walk_root _ _ hw1).1
  have hnd : t.nodes[i1]? = some t.nodes[i1] := List.getElem?_eq_getElem hi1
  unfold insert32
  rw [hs.root]
  simp only [Nat.shiftRight_zero] at hd
  rw [hd]
  simp only [bind_ok]
  rcases hcase with ⟨hk, hnext⟩ | ⟨hk, hnext, hchild⟩
  · subst hk
    subst hnext
    have hl : lookup t (keyPath key k1) = (t.nodes[i1]).value := by
      simp [lookup, hs.root, hw1, hnd]
    simp only [ne_eq, reduceCtorEq, not_false_eq_true, if_true, deref_some t i1 _ hnd, bind_ok]
    cases hv : (t.nodes[i1]).value with
    | some w =>
      refine ⟨t, path, some .ErrNodeBusy, by simp, hs, ?_⟩
      intro q
      by_cases hq : q = keyPath key k1
      · subst hq; rw [hl, hv]; simp
      · simp [hq]
    | none =>
      refine ⟨_, path, none, by simp [modify_some t i1 _ _ hnd, bind_ok],
        setValue_shaped hs i1 _ (some v) hnd, ?_⟩
      intro q
      rw [setValue_lookup hs i1 _ (some v) hnd _ hw1 q]
      by_cases hq : q = keyPath key k1
      · subst hq; rw [hl, hv]; simp
      · simp [hq]
  · subst hnext
    obtain ⟨t1, path1, i2, hc, hs1, hw2, hl1⟩ :=
      insertCreate_shaped key n hn (n - k1) k1 bitFuel t path i1 hs (by omega)
        (by unfold bitFuel; omega) hw1 (fun _ => hchild)
    have hi2 := (hs1.walk_root _ _ hw2).1
    have hnd2 : t1.nodes[i2]? = some t1.nodes[i2] := List.getElem?_eq_getElem hi2
    have hnone : lookup t (keyPath key n) = none := by
      obtain ⟨d, rfl⟩ : ∃ d, n = k1 + 1 + d := ⟨n - k1 - 1, by omega⟩
      have e : keyPath key (k1 + 1 + d)
          = keyPath key k1 ++ [keyBit key k1] ++ (List.range' (k1 + 1) d).map (keyBit key) := by
        rw [← keyPath_succ]
        simp [keyPath, List.range_add, List.range'_eq_map_range]
      unfold lookup
      rw [hs.root, e, walk_append, walk_snoc _ _ _ i1 _ hw1 hnd, hchild _ hnd, walk_none]
      rfl
    refine ⟨_, path1, none, by simp [hc, modify_some t1 i2 _ _ hnd2],
      setValue_shaped hs1 i2 _ (some v) hnd2, ?_⟩
    intro q
    rw [setValue_lookup hs1 i2 _ (some v) hnd2 _ hw2 q]
    by_cases hq : q = keyPath key n
    · subst hq; rw [hnone]; simp
    · simp [hq, hl1 q]

/-! ### Insertion-only sessions -/

theorem newTree_zero :
    (NewTree 0 : Res (Tree V)) = .ok ⟨[zeroNode], some 0, none, false⟩ := rfl

theorem newTree_shaped :
    Shaped (⟨[zeroNode], some 0, none, false⟩ : Tree V) (fun _ => []) := by
  refine ⟨rfl, rfl, by simp, rfl, ?_⟩
  intro i n hn b j hj
  cases i with
  | zero =>
    simp only [List.getElem?_cons_zero, Option.some.injEq] at hn
    subst hn
    cases b <;> simp [child, zeroNode] at hj
  | succ i => simp at hn

theorem newTree_lookup (q : List Bool) :
    lookup (⟨[zeroNode], some 0, none, false⟩ : Tree V) q = none := by
  cases q with
  | nil => rfl
  | cons b q => cases b <;> simp [lookup, walk, child, zeroNode, walk_none]

theorem addedAt_append (adds : List (Cidr × V)) (e : Cidr × V) (q : List Bool) :
    addedAt (adds ++ [e]) q
      = (addedAt adds q).or (if q = keyPath e.1.key e.1.n then some e.2 else none) := by
  unfold addedAt
  rw [List.find?_append]
  cases h : List.find? (fun e => decide (keyPath e.1.key e.1.n = q)) adds with
  | some x => simp
  | none =>
    by_cases hq : q = keyPath e.1.key e.1.n
    · simp [hq]
    · have : ¬ keyPath e.1.key e.1.n = q := fun h => hq h.symm
      simp [hq, this]

theorem addedAt_keyPath (adds : List (Cidr × V)) (hadds : ∀ e ∈ adds, e.1.WF)
    (a l : Nat) (ha : a < 2 ^ 32) :
    addedAt adds (keyPath a l) = firstAdded adds a l := by
  unfold addedAt firstAdded
  congr 1
  induction adds with
  | nil => rfl
  | cons e adds ih =>
    have hwf := hadds e (List.mem_cons_self _ _)
    have hiff := keyPath_eq_keyPath e.1.key e.1.n a l (cidr_key_lt e.1 hwf) ha hwf.2.2.2.2
    simp only [List.find?_cons]
    have : decide (keyPath e.1.key e.1.n = keyPath a l)
        = decide (e.1.n = l ∧ e.1.key >>> (32 - l) = a >>> (32 - l)) := by
      rw [decide_eq_decide]; exact hiff
    rw [this, ih (fun x hx => hadds x (List.mem_cons_of_mem _ hx))]

theorem scanDown_firstAdded (adds : List (Cidr × V)) (a L : Nat) :
    scanDown (fun l => firstAdded adds a l) L = longestMatch adds a L := by
  induction L with
  | zero => rfl
  | succ L ih => simp only [scanDown, longestMatch, ih]

theorem addCIDR_text (t : Tree V) (p : Cidr) (hp : p.WF) (v : Option V) :
    AddCIDR t p.text v = insert32 t p.key (maskBits p.n) v := by
  simp only [AddCIDR, parsecidr4_text p hp]

theorem findCIDR_text (t : Tree V) (p : Cidr) (hp : p.WF) :
    FindCIDR t p.text = (find32 t p.key (maskBits p.n)).bind fun v => .ok (v, none) := by
  simp only [FindCIDR, parsecidr4_text p hp]

theorem deleteCIDR_text (t : Tree V) (p : Cidr) (hp : p.WF) :
    DeleteCIDR t p.text = delete32 t p.key (maskBits p.n) := by
  simp only [DeleteCIDR, parsecidr4_text p hp]

theorem addCalls_shaped (adds : List (Cidr × V)) :
    ∀ (done : List (Cidr × V)) (t : Tree V) (path : Nat → List Bool),
      (∀ e ∈ adds, e.1.WF) → Shaped t path → (∀ q, lookup t q = addedAt done q) →
      ∃ t1 path1 rs, calls t (addCalls adds) = .ok (t1, rs) ∧ Shaped t1 path1
        ∧ ∀ q, lookup t1 q = addedAt (done ++ adds) q := by
  induction adds with
  | nil =>
    intro done t path _ hs hl
    exact ⟨t, path, [], rfl, hs, by simpa using hl⟩
  | cons e adds ih =>
    intro done t path hwf hs hl
    have he := hwf e (List.mem_cons_self _ _)
    obtain ⟨t1, path1, err, h1, hs1, hl1⟩ := insert32_shaped hs e.1.key e.1.n he.2.2.2.2 e.2
    have hl2 : ∀ q, lookup t1 q = addedAt (done ++ [e]) q := by
      intro q
      rw [hl1 q, hl q, addedAt_append]
    obtain ⟨t2, path2, rs, h2, hs2, hl3⟩ :=
      ih (done ++ [e]) t1 path1 (fun x hx => hwf x (List.mem_cons_of_mem _ hx)) hs1 hl2
    refine ⟨t2, path2, .error err :: rs, ?_, hs2, ?_⟩
    · simp only [addCalls, List.map_cons, calls, call, addCIDR_text t e.1 he, h1, bind_ok]
      simp only [addCalls] at h2
      rw [h2]
      rfl
    · intro q
      rw [hl3 q]
      simp

theorem findCIDR_addCalls (adds : List (Cidr × V)) (hadds : ∀ e ∈ adds, e.1.WF)
    (q : Cidr) (hq : q.WF) :
    ∃ t rs, (NewTree 0).bind (fun t0 => calls t0 (addCalls adds)) = .ok (t, rs) ∧
      FindCIDR t q.text = .ok (longestMatch adds q.key q.n, none) := by
  obtain ⟨t1, path1, rs, h1, hs1, hl1⟩ :=
    addCalls_shaped adds [] _ _ hadds (newTree_shaped (V := V))
      (fun q => by rw [newTree_lookup]; rfl)
  refine ⟨t1, rs, by rw [newTree_zero]; exact h1, ?_⟩
  rw [findCIDR_text t1 q hq, find32_shaped hs1 q.key q.n hq.2.2.2.2]
  simp only [bind_ok]
  have : (fun l => lookup t1 (keyPath q.key l)) = fun l => firstAdded adds q.key l := by
    funext l
    rw [hl1, List.nil_append, addedAt_keyPath adds hadds q.key l (cidr_key_lt q hq)]
  rw [this, scanDown_firstAdded]

/-! ### The reference longest match, read declaratively -/

theorem firstAdded_some (adds : List (Cidr × V)) (a l : Nat) (v : V)
    (h : firstAdded adds a l = some v) :
    ∃ e, adds.find? (fun e => decide (e.1.n = l ∧ e.1.key >>> (32 - l) = a >>> (32 - l))) = some e
      ∧ e.2 = v := by
  unfold firstAdded at h
  cases hf : adds.find? (fun e => decide (e.1.n = l ∧ e.1.key >>> (32 - l) = a >>> (32 - l))) with
  | none => rw [hf] at h; cases h
  | some e =>
    rw [hf] at h
    exact ⟨e, rfl, by simpa using h⟩

theorem firstAdded_none (adds : List (Cidr × V)) (a l : Nat)
    (h : firstAdded adds a l = none) :
    ∀ e ∈ adds, ¬ (e.1.n = l ∧ e.1.key >>> (32 - l) = a >>> (32 - l)) := by
  unfold firstAdded at h
  intro e he
  rw [Option.map_eq_none'] at h
  have := List.find?_eq_none.mp h e he
  simpa using this

theorem longestMatch_some (adds : List (Cidr × V)) (a : Nat) (v : V) :
    ∀ L, longestMatch adds a L = some v →
      ∃ l, l ≤ L ∧ firstAdded adds a l = some v
        ∧ ∀ l1, l < l1 → l1 ≤ L → firstAdded adds a l1 = none := by
  intro L
  induction L with
  | zero =>
    intro h
    exact ⟨0, le_refl _, h, fun l1 h1 h2 => by omega⟩
  | succ L ih =>
    intro h
    simp only [longestMatch] at h
    cases hf : firstAdded adds a (L + 1) with
    | some w =>
      rw [hf] at h
      cases h
      exact ⟨L + 1, le_refl _, hf, fun l1 h1 h2 => by omega⟩
    | none =>
      rw [hf] at h
      obtain ⟨l, h1, h2, h3⟩ := ih h
      refine ⟨l, by omega, h2, ?_⟩
      intro l1 hl1 hl2
      by_cases e : l1 = L + 1
      · subst e; exact hf
      · exact h3 l1 hl1 (by omega)

theorem longestMatch_none (adds : List (Cidr × V)) (a : Nat) :
    ∀ L, longestMatch adds a L = none → ∀ l, l ≤ L → firstAdded adds a l = none := by
  intro L
  induction L with
  | zero =>
    intro h l hl
    have : l = 0 := by omega
    subst this
    exact h
  | succ L ih =>
    intro h l hl
    simp only [longestMatch] at h
    cases hf : firstAdded adds a (L + 1) with
    | some w => rw [hf] at h; cases h
    | none =>
      rw [hf] at h
      by_cases e : l = L + 1
      · subst e; exact hf
      · exact ih h l (by omega)

theorem longestMatch_spec (adds : List (Cidr × V)) (a L : Nat) :
    (∀ v, longestMatch adds a L = some v →
      ∃ e, adds.find? (fun x =>
          decide (x.1.n = e.1.n ∧ x.1.key >>> (32 - e.1.n) = a >>> (32 - e.1.n))) = some e
        ∧ e.2 = v ∧ covers e.1.key e.1.n a L
        ∧ ∀ x ∈ adds, covers x.1.key x.1.n a L → x.1.n ≤ e.1.n)
    ∧ (longestMatch adds a L = none → ∀ x ∈ adds, ¬ covers x.1.key x.1.n a L) := by
  constructor
  · intro v h
    obtain ⟨l, hl, hf, hmax⟩ := longestMatch_some adds a v L h
    obtain ⟨e, he, hv⟩ := firstAdded_some adds a l v hf
    have hp := List.find?_some he
    simp only [decide_eq_true_eq] at hp
    obtain ⟨hn, hk⟩ := hp
    subst hn
    refine ⟨e, he, hv, ⟨hl, hk⟩, ?_⟩
    intro x hx hc
    by_contra hlt
    have := firstAdded_none adds a x.1.n (hmax x.1.n (by omega) hc.1) x hx
    exact this ⟨rfl, hc.2⟩
  · intro h x hx hc
    exact firstAdded_none adds a x.1.n (longestMatch_none adds a L h x.1.n hc.1) x hx ⟨rfl, hc.2⟩

/-! ### Failed calls -/

theorem bind_eq_ok {α β : Type} (x : Res α) (f : α → Res β) (b : β)
    (h : x.bind f = .ok b) : ∃ a, x = .ok a ∧ f a = .ok b := by
  cases x with
  | ok a => exact ⟨a, rfl, h⟩
  | nilDeref => cases h
  | badPtr => cases h
  | outOfFuel => cases h

theorem insert32_error (t t1 : Tree V) (key mask : Nat) (val : Option V) (e : Err)
    (h : insert32 t key mask val = .ok (t1, some e)) : t1 = t := by
  unfold insert32 at h
  obtain ⟨⟨bit, node, next⟩, _, h⟩ := bind_eq_ok _ _ _ h
  simp only at h
  split_ifs at h with hnext
  · obtain ⟨n, _, h⟩ := bind_eq_ok _ _ _ h
    split_ifs at h with hv
    · cases h; rfl
    · obtain ⟨t2, _, h⟩ := bind_eq_ok _ _ _ h
      cases h
  · obtain ⟨⟨t2, node1⟩, _, h⟩ := bind_eq_ok _ _ _ h
    obtain ⟨t3, _, h⟩ := bind_eq_ok _ _ _ h
    cases h

theorem delete32_error (t t1 : Tree V) (key mask : Nat) (e : Err)
    (h : delete32 t key mask = .ok (t1, some e)) : t1 = t := by
  unfold delete32 at h
  obtain ⟨node, _, h⟩ := bind_eq_ok _ _ _ h
  split_ifs at h with hnode
  · cases h; rfl
  · obtain ⟨n, _, h⟩ := bind_eq_ok _ _ _ h
    split_ifs at h with h2 hv
    · obtain ⟨t2, _, h⟩ := bind_eq_ok _ _ _ h
      cases h
    · cases h; rfl
    · obtain ⟨t2, _, h⟩ := bind_eq_ok _ _ _ h
      cases h

theorem addCIDR_error (t t1 : Tree V) (cidr : List Char) (val : Option V) (e : Err)
    (h : AddCIDR t cidr val = .ok (t1, some e)) : t1 = t := by
  unfold AddCIDR at h
  split at h
  · cases h; rfl
  · exact insert32_error _ _ _ _ _ _ h

theorem deleteCIDR_error (t t1 : Tree V) (cidr : List Char) (e : Err)
    (h : DeleteCIDR t cidr = .ok (t1, some e)) : t1 = t := by
  unfold DeleteCIDR at h
  split at h
  · cases h; rfl
  · exact delete32_error _ _ _ _ _ h

/-! ## The claims -/

/-- C1. Longest-match lookup on insertion-only trees: after any sequence of
`AddCIDR` calls with well-formed texts and non-nil values on `NewTree(0)`,
every call succeeds in returning, and `FindCIDR(a/L)` returns the reference
longest match: the value of the first added block among those of greatest
length `l <= L` that agree with `a` on their first `l` bits, and nil when no
added block covers the query. -/
theorem C1_longest_match_add_only {V : Type} (adds : List (Cidr × V))
    (hadds : ∀ e ∈ adds, e.1.WF) (q : Cidr) (hq : q.WF) :
    (∃ t rs, (NewTree 0).bind (fun t0 => calls t0 (addCalls adds)) = .ok (t, rs) ∧
      FindCIDR t q.text = .ok (longestMatch adds q.key q.n, none))
    ∧ (∀ v, longestMatch adds q.key q.n = some v →
        ∃ e, adds.find? (fun x =>
            decide (x.1.n = e.1.n ∧ x.1.key >>> (32 - e.1.n) = q.key >>> (32 - e.1.n))) = some e
          ∧ e.2 = v ∧ covers e.1.key e.1.n q.key q.n
          ∧ ∀ x ∈ adds, covers x.1.key x.1.n q.key q.n → x.1.n ≤ e.1.n)
    ∧ (longestMatch adds q.key q.n = none → ∀ x ∈ adds, ¬ covers x.1.key x.1.n q.key q.n) :=
  ⟨findCIDR_addCalls adds hadds q hq, (longestMatch_spec adds q.key q.n).1,
    (longestMatch_spec adds q.key q.n).2⟩

/-- Witness for C1: the blocks of `TestTree`, queried at `1.2.3.160/32`. -/
theorem C1_longest_match_add_only_witness :
    (∀ e ∈ [((⟨1, 2, 3, 0, 25⟩ : Cidr), 1), (⟨1, 2, 3, 0, 24⟩, 2)], e.1.WF)
    ∧ (⟨1, 2, 3, 160, 32⟩ : Cidr).WF
    ∧ ((∃ t rs, (NewTree 0).bind (fun t0 => calls t0
          (addCalls [((⟨1, 2, 3, 0, 25⟩ : Cidr), 1), (⟨1, 2, 3, 0, 24⟩, 2)])) = .ok (t, rs) ∧
        FindCIDR t (Cidr.text ⟨1, 2, 3, 160, 32⟩)
          = .ok (longestMatch [((⟨1, 2, 3, 0, 25⟩ : Cidr), 1), (⟨1, 2, 3, 0, 24⟩, 2)]
              (Cidr.key ⟨1, 2, 3, 160, 32⟩) 32, none))) :=
  ⟨by decide, by decide,
    (C1_longest_match_add_only [((⟨1, 2, 3, 0, 25⟩ : Cidr), 1), (⟨1, 2, 3, 0, 24⟩, 2)]
      (by decide) ⟨1, 2, 3, 160, 32⟩ (by decide)).1⟩

/-- C7. Failed calls are atomic: whenever `AddCIDR` or `DeleteCIDR` returns a
non-nil error on any tree and any text, the tree after the call is the tree
before it (all nodes, the root and the free list), so every `FindCIDR` answers
as before. -/
theorem C7_failed_calls_atomic {V : Type} (t t1 : Tree V) (cidr : List Char)
    (val : Option V) (e : Err)
    (h : AddCIDR t cidr val = .ok (t1, some e) ∨ DeleteCIDR t cidr = .ok (t1, some e)) :
    t1 = t ∧ ∀ q, FindCIDR t1 q = FindCIDR t q := by
  have : t1 = t := by
    rcases h with h | h
    · exact addCIDR_error t t1 cidr val e h
    · exact deleteCIDR_error t t1 cidr e h
  subst this
  exact ⟨rfl, fun _ => rfl⟩

/-- Witness for C7: `AddCIDR` of `0.0.0.0/0` fails with `ErrNodeBusy` on a
tree whose root carries a payload, and the tree it leaves is the tree it got. -/
theorem C7_failed_calls_atomic_witness :
    (AddCIDR busyRoot "0.0.0.0/0".toList (some 9) = .ok (busyRoot, some .ErrNodeBusy)
      ∨ DeleteCIDR busyRoot "0.0.0.0/0".toList = .ok (busyRoot, some .ErrNodeBusy))
    ∧ busyRoot = busyRoot ∧ ∀ q, FindCIDR busyRoot q = FindCIDR busyRoot q :=
  ⟨Or.inl (by decide),
    C7_failed_calls_atomic busyRoot busyRoot "0.0.0.0/0".toList (some 9) .ErrNodeBusy
      (Or.inl (by decide))⟩

set_option maxRecDepth 100000 in
theorem maskBits_testBit_small : ∀ n, n < 33 → ∀ i, i < 32 →
    (maskBits n).testBit i = decide (32 - n ≤ i) := by
  decide

/-- C10. The scanner on valid text: for octets in `0..255` and `n` in `0..32`
`parsecidr4` on the decimal text `a.b.c.d/n` returns the key
`a*2^24 + b*2^16 + c*2^8 + d`, the mask whose `n` most significant bits of 32
are set (0 for `n = 0`, `0xffffffff` for `n = 32`) and no error; on `a.b.c.d`
it returns the same key with mask `0xffffffff`, so each operation on `a.b.c.d`
is the operation on `a.b.c.d/32`. -/
theorem C10_parsecidr4_valid (p : Cidr) (hp : p.WF) :
    parsecidr4 p.text = (p.key, maskBits p.n, none)
    ∧ p.key = p.a * 2 ^ 24 + p.b * 2 ^ 16 + p.c * 2 ^ 8 + p.d
    ∧ maskBits p.n < 2 ^ 32
    ∧ (∀ i, i < 32 → (maskBits p.n).testBit i = decide (32 - p.n ≤ i))
    ∧ maskBits 0 = 0 ∧ maskBits 32 = 0xffffffff
    ∧ parsecidr4 p.addrText = (p.key, 0xffffffff, none)
    ∧ (∀ (V : Type) (t : Tree V) (v : Option V),
        AddCIDR t p.addrText v = AddCIDR t (Cidr.text { p with n := 32 }) v
        ∧ DeleteCIDR t p.addrText = DeleteCIDR t (Cidr.text { p with n := 32 })
        ∧ FindCIDR t p.addrText = FindCIDR t (Cidr.text { p with n := 32 })) := by
  have h32 : (Cidr.WF { p with n := 32 }) := ⟨hp.1, hp.2.1, hp.2.2.1, hp.2.2.2.1, le_refl _⟩
  have e32 : parsecidr4 (Cidr.text { p with n := 32 }) = (p.key, 0xffffffff, none) :=
    parsecidr4_text _ h32
  have ea := parsecidr4_addrText p hp
  refine ⟨parsecidr4_text p hp, rfl, ?_, ?_, by decide, by decide, ea, ?_⟩
  · unfold maskBits
    have : 0 < 2 ^ (32 - p.n) := Nat.pow_pos (by decide)
    omega
  · intro i hi
    exact maskBits_testBit_small p.n (by have := hp.2.2.2.2; omega) i hi
  · intro V t v
    simp only [AddCIDR, DeleteCIDR, FindCIDR, ea, e32, and_self]

/-- Witness for C10: the text `1.2.3.0/25`. -/
theorem C10_parsecidr4_valid_witness :
    (⟨1, 2, 3, 0, 25⟩ : Cidr).WF
    ∧ parsecidr4 "1.2.3.0/25".toList = (16909056, 4294967168, none) :=
  ⟨by decide, (C10_parsecidr4_valid ⟨1, 2, 3, 0, 25⟩ (by decide)).1⟩

/-! ## Where the code departs from the claims -/

set_option maxRecDepth 100000 in
/-- C2. Deleting a covering block: with `1.2.3.0/25` and `1.2.3.0/24` stored
(the calls of `TestTree`), `DeleteCIDR("1.2.3.0/24")` returns nil but unlinks
the node of the /24 together with the /25 below it, so `FindCIDR` no longer
finds the /25 payload. -/
theorem C2_delete_covering_drops_specific :
    session 0 [.add "1.2.3.0/25".toList (some 1), .add "1.2.3.0/24".toList (some 2),
        .delete "1.2.3.0/24".toList, .find "1.2.3.0/32".toList, .find "1.2.3.0/25".toList]
      = .ok [.error none, .error none, .error none,
          .found (none : Option Nat) none, .found none none] := by
  decide

set_option maxRecDepth 100000 in
/-- C3. Recycled nodes keep their fields: after the calls of `TestRegression`
(add `1.1.1.0/24`, delete it, add `1.1.1.0/25`) `FindCIDR("1.1.1.128")`, which
the new block does not cover, returns the deleted payload. -/
theorem C3_recycled_node_shows_deleted_value :
    session 0 [.add "1.1.1.0/24".toList (some 1), .delete "1.1.1.0/24".toList,
        .add "1.1.1.0/25".toList (some 2), .find "1.1.1.128".toList]
      = .ok [.error none, .error none, .error none, .found (some 1) none] := by
  decide

/-- C4. Deleting the only stored block when it is the zero-length one:
`DeleteCIDR("0.0.0.0/0")` dereferences the nil parent of the root. -/
theorem C4_delete_only_block_at_root_panics :
    session 0 [.add "0.0.0.0/0".toList (some 1), .delete "0.0.0.0/0".toList,
        .find "1.2.3.4".toList]
      = (.nilDeref : Res (List (Reply Nat))) := by
  decide

set_option maxRecDepth 100000 in
/-- C5. Deleting a block that is not stored but lies on the path to a stored
one: `DeleteCIDR("1.2.3.0/24")` returns nil instead of `ErrNotFound` and the
stored `1.2.3.0/25` is lost. -/
theorem C5_delete_unstored_on_path_succeeds :
    session 0 [.add "1.2.3.0/25".toList (some 1), .find "1.2.3.0/25".toList,
        .delete "1.2.3.0/24".toList, .find "1.2.3.0/25".toList]
      = .ok [.error none, .found (some 1) none, .error none,
          .found (none : Option Nat) none] := by
  decide

/-- C6. `ErrNodeBusy` for a block never added: after add `128.0.0.0/2`, delete
it, add `0.0.0.0/1`, the call `AddCIDR("64.0.0.0/2")` reaches a recycled node
through a stale right link and reports it busy. -/
theorem C6_busy_on_never_added_block :
    session 0 [.add "128.0.0.0/2".toList (some 1), .delete "128.0.0.0/2".toList,
        .add "0.0.0.0/1".toList (some 2), .add "64.0.0.0/2".toList (some 3)]
      = .ok [.error none, .error none, .error none,
          (.error (some .ErrNodeBusy) : Reply Nat)] := by
  decide

/-- C8. Round trip in a state with recycled nodes: after add `64.0.0.0/2`,
delete it, add `128.0.0.0/1`, the call `AddCIDR("240.0.0.0/5", 3)` returns nil
and the following `FindCIDR("240.0.0.0/5")` returns the deleted payload 1. -/
theorem C8_round_trip_fails_after_recycling :
    session 0 [.add "64.0.0.0/2".toList (some 1), .delete "64.0.0.0/2".toList,
        .add "128.0.0.0/1".toList (some 2), .add "240.0.0.0/5".toList (some 3),
        .find "240.0.0.0/5".toList]
      = .ok [.error none, .error none, .error none, .error none,
          .found (some 1) none] := by
  decide

/-- C9. Deleting the zero-length block: on a fresh tree, and on a tree whose
root carries a payload and one child, `DeleteCIDR("0.0.0.0/0")` dereferences
the nil parent of the root instead of returning. -/
theorem C9_delete_root_dereferences_nil_parent :
    session 0 [.delete "0.0.0.0/0".toList] = (.nilDeref : Res (List (Reply Nat)))
    ∧ session 0 [.add "0.0.0.0/0".toList (some 1), .add "128.0.0.0/1".toList (some 2),
        .delete "0.0.0.0/0".toList] = (.nilDeref : Res (List (Reply Nat)))
    ∧ session 1 [.delete "0.0.0.0/1".toList, .delete "0.0.0.0/0".toList]
        = (.nilDeref : Res (List (Reply Nat))) := by
  decide

/-! ## Later claims where the code departs from the claim -/

/-- C11. Masks outside `0..32` are not rejected: `parsecidr4` accepts `/33`
and the empty mask as the zero-length mask, and a mask number that overflows
32 bits by its value modulo `2^32`; `AddCIDR("1.2.3.4/33", v)` so stores `v` as
the catch-all that `FindCIDR("9.9.9.9")` returns. -/
theorem C11_mask_out_of_range_accepted :
    parsecidr4 "1.2.3.4/33".toList = (16909060, 0, none)
    ∧ parsecidr4 "1.2.3.4/".toList = (16909060, 0, none)
    ∧ parsecidr4 "1.2.3.4/4294967320".toList = (16909060, maskBits 24, none)
    ∧ session 0 [.add "1.2.3.4/33".toList (some 1), .find "9.9.9.9".toList]
        = .ok [.error none, (.found (some 1) none : Reply Nat)] := by
  decide

set_option maxRecDepth 100000 in
/-- C12. Strings that are not four well-formed octets are accepted by
`loadip4`: an empty octet counts as 0 (`"1..2.3"`, `"..."`), and 259 dots are
taken for three because the dot counter is a byte. -/
theorem C12_malformed_octets_accepted :
    loadip4 "1..2.3".toList = (16777731, none)
    ∧ loadip4 "...".toList = (0, none)
    ∧ loadip4 (List.replicate 259 '.') = (0, none) := by
  decide

/-- C15. An attached empty leaf: after add `224.0.0.0/3`, delete
`192.0.0.0/2`, add `0.0.0.0/1`, the node reached from the root by the bits 0, 1
is node 2, which is not the root and has no child and no payload. -/
theorem C15_empty_leaf_stays_attached :
    (treeAfter 0 [.add "224.0.0.0/3".toList (some 1), .delete "192.0.0.0/2".toList,
        .add "0.0.0.0/1".toList (some 2)]).bind
      (fun t => .ok (t.root, walk t.nodes [false, true] t.root, t.nodes[2]?))
    = .ok (some 0, some 2, some (⟨none, none, some 1, none⟩ : Node Nat)) := by
  decide

/-- C16. The free list meets the live tree: after add `128.0.0.0/2`, delete
it, add `0.0.0.0/1`, the head of the free list is node 2, node 2 is reached
from the root by the bits 0, 1, and it still carries the deleted payload. -/
theorem C16_free_list_node_reachable_with_payload :
    (treeAfter 0 [.add "128.0.0.0/2".toList (some 1), .delete "128.0.0.0/2".toList,
        .add "0.0.0.0/1".toList (some 2)]).bind
      (fun t => .ok (t.free, walk t.nodes [false, true] t.root, t.nodes[2]?))
    = .ok (some 2, some 2, some (⟨none, none, some 1, some 1⟩ : Node Nat)) := by
  decide

/-- C17. `newnode` hands out a recycled node as it was released: after add
`128.0.0.0/2` and its deletion the first `newnode` returns node 1 with its old
parent and a right link, the second returns node 2 with its old parent and the
deleted payload. -/
theorem C17_newnode_returns_uncleared_node :
    (treeAfter 0 [.add "128.0.0.0/2".toList (some 1), .delete "128.0.0.0/2".toList]).bind
      (fun t => (newnode t).bind fun (t1, p1) => (newnode t1).bind fun (t2, p2) =>
        .ok (p1, t1.nodes[1]?, p2, t2.nodes[2]?, t2.free))
    = .ok (some 1, some (⟨none, some 2, some 0, none⟩ : Node Nat),
        some 2, some (⟨none, none, some 1, some 1⟩ : Node Nat), none) := by
  decide

theorem prune_hang_start (f : Nat) :
    deletePrune (f + 2) hangTree (some 5) = deletePrune f hangTree2 (some 5) := rfl

theorem prune_hang_period (f : Nat) :
    deletePrune (f + 2) hangTree2 (some 5) = deletePrune f hangTree2 (some 5) := rfl

theorem prune_hang2_never (f : Nat) : deletePrune f hangTree2 (some 5) = .outOfFuel := by
  induction f using Nat.strong_induction_on with
  | _ f ih =>
    match f with
    | 0 => rfl
    | 1 => decide
    | f + 2 => rw [prune_hang_period]; exact ih f (by omega)

theorem prune_hang_never (f : Nat) : deletePrune f hangTree (some 5) = .outOfFuel := by
  match f with
  | 0 => rfl
  | 1 => decide
  | f + 2 => rw [prune_hang_start]; exact prune_hang2_never f

theorem delete_hang : DeleteCIDR hangTree "128.0.0.0/2".toList = .outOfFuel := by
  have hp : parsecidr4 "128.0.0.0/2".toList = (2147483648, 3221225472, none) := by decide
  have hd : deleteDescend hangTree 2147483648 3221225472 bitFuel startbit hangTree.root
      = .ok (some 5) := by decide
  have hn : deref hangTree (some 5) = .ok ⟨none, some 7, some 7, none⟩ := by decide
  unfold DeleteCIDR
  rw [hp]
  show delete32 hangTree 2147483648 3221225472 = _
  unfold delete32
  rw [hd, bind_ok, if_neg (by decide), hn, bind_ok, if_neg (by decide), prune_hang_never]
  rfl

/-- C18. The pruning loop need not end: five calls on `NewTree(2)` lead to a
tree in which nodes 5 and 7 are each other's parent; `DeleteCIDR("128.0.0.0/2")`
then starts the pruning loop at node 5, and the loop exhausts every budget of
turns, so the call never returns. -/
theorem C18_prune_loop_never_ends :
    treeAfter 2 hangCalls = .ok hangTree
    ∧ (∀ fuel, deletePrune fuel hangTree (some 5) = .outOfFuel)
    ∧ DeleteCIDR hangTree "128.0.0.0/2".toList = .outOfFuel :=
  ⟨by decide, prune_hang_never, delete_hang⟩

/-- C20. Preallocation shows: `DeleteCIDR("0.0.0.0/1")` as the first call
returns nil on `NewTree(1)` and `ErrNotFound` on `NewTree(0)`. -/
theorem C20_preallocation_observable :
    session 1 [.delete "0.0.0.0/1".toList] = .ok [(.error none : Reply Nat)]
    ∧ session 0 [.delete "0.0.0.0/1".toList]
        = .ok [(.error (some .ErrNotFound) : Reply Nat)] := by
  decide

/-! ### Host bits -/

theorem startbit_shift_big (k : Nat) (hk : 32 ≤ k) : startbit >>> k = 0 := by
  rw [Nat.shiftRight_eq_div_pow]
  apply Nat.div_eq_of_lt
  have : startbit = 2 ^ 31 := by decide
  rw [this]
  exact Nat.pow_lt_pow_right (by decide) (by omega)

theorem bit_and_mask_lt (n k : Nat) (hn : n ≤ 32)
    (h : (startbit >>> k) &&& maskBits n ≠ 0) : k < n := by
  by_cases hk : k ≤ 32
  · exact (bit_and_mask n k hn hk).mp h
  · rw [startbit_shift_big k (by omega)] at h
    simp at h

/-- Two keys test alike at every depth below `n`. -/
theorem keyTest_congr (a b n k : Nat) (hn : n ≤ 32) (ha : a < 2 ^ 32) (hb : b < 2 ^ 32)
    (h : a >>> (32 - n) = b >>> (32 - n)) (hk : k < n) :
    (a &&& startbit >>> k ≠ 0) ↔ (b &&& startbit >>> k ≠ 0) := by
  have := (shift_eq_iff a b n ha hb hn).mp h k hk
  unfold keyBit at this
  exact decide_eq_decide.mp this

theorem insertCreate_congr (a b n : Nat) (hn : n ≤ 32) (ha : a < 2 ^ 32) (hb : b < 2 ^ 32)
    (h : a >>> (32 - n) = b >>> (32 - n)) :
    ∀ (fuel k : Nat) (t : Tree V) (node : Option Nat),
      insertCreate a (maskBits n) fuel t (startbit >>> k) node
        = insertCreate b (maskBits n) fuel t (startbit >>> k) node := by
  intro fuel
  induction fuel with
  | zero => intro k t node; rfl
  | succ fuel ih =>
    intro k t node
    simp only [insertCreate]
    by_cases hbit : startbit >>> k &&& maskBits n ≠ 0
    · have hk := bit_and_mask_lt n k hn hbit
      have hiff := keyTest_congr a b n k hn ha hb h hk
      simp only [hbit, if_true, hiff, startbit_shift_succ, ih]
    · simp only [hbit, if_false]

theorem insertDescend_congr (a b n : Nat) (hn : n ≤ 32) (ha : a < 2 ^ 32)
    (hb : b < 2 ^ 32) (h : a >>> (32 - n) = b >>> (32 - n)) (t : Tree V) :
    ∀ (fuel k : Nat) (node next : Option Nat),
      insertDescend t a (maskBits n) fuel (startbit >>> k) node next
        = insertDescend t b (maskBits n) fuel (startbit >>> k) node next := by
  intro fuel
  induction fuel with
  | zero => intro k node next; rfl
  | succ fuel ih =>
    intro k node next
    simp only [insertDescend]
    by_cases hbit : startbit >>> k &&& maskBits n ≠ 0
    · have hk := bit_and_mask_lt n k hn hbit
      have hiff := keyTest_congr a b n k hn ha hb h hk
      simp only [hbit, if_true, hiff, startbit_shift_succ, ih]
    · simp only [hbit, if_false]

theorem insertDescend_bit (key mask : Nat) (t : Tree V) :
    ∀ (fuel k : Nat) (node next : Option Nat) (bit : Nat) (nd nx : Option Nat),
      insertDescend t key mask fuel (startbit >>> k) node next = .ok (bit, nd, nx) →
      ∃ k1, bit = startbit >>> k1 := by
  intro fuel
  induction fuel with
  | zero => intro k node next bit nd nx h; cases h
  | succ fuel ih =>
    intro k node next bit nd nx h
    rw [insertDescend] at h
    by_cases hbit : startbit >>> k &&& mask ≠ 0
    · rw [if_pos hbit] at h
      obtain ⟨n1, _, h⟩ := bind_eq_ok _ _ _ h
      by_cases hnx : (if key &&& startbit >>> k ≠ 0 then n1.right else n1.left) = none
      · rw [if_pos hnx] at h
        injection h with h
        injection h with h1 h2
        exact ⟨k, h1.symm⟩
      · rw [if_neg hnx, startbit_shift_succ] at h
        exact ih _ _ _ _ _ _ h
    · rw [if_neg hbit] at h
      injection h with h
      injection h with h1 h2
      exact ⟨k, h1.symm⟩

theorem bind_congr_ok {α β : Type} (x : Res α) (f g : α → Res β)
    (h : ∀ a, x = .ok a → f a = g a) : x.bind f = x.bind g := by
  cases x with
  | ok a => exact h a rfl
  | nilDeref => rfl
  | badPtr => rfl
  | outOfFuel => rfl

theorem insert32_congr (a b n : Nat) (hn : n ≤ 32) (ha : a < 2 ^ 32) (hb : b < 2 ^ 32)
    (h : a >>> (32 - n) = b >>> (32 - n)) (t : Tree V) (val : Option V) :
    insert32 t a (maskBits n) val = insert32 t b (maskBits n) val := by
  unfold insert32
  generalize bitFuel = fuel
  have hd := insertDescend_congr a b n hn ha hb h t fuel 0 t.root t.root
  rw [Nat.shiftRight_zero] at hd
  rw [hd]
  apply bind_congr_ok
  rintro ⟨bit, nd, nx⟩ hr
  obtain ⟨k1, hk1⟩ := insertDescend_bit b (maskBits n) t fuel 0 t.root t.root bit nd nx
    (by rw [Nat.shiftRight_zero]; exact hr)
  subst hk1
  simp only
  rw [insertCreate_congr a b n hn ha hb h fuel k1 t nd]

theorem deleteDescend_congr (a b n : Nat) (hn : n ≤ 32) (ha : a < 2 ^ 32) (hb : b < 2 ^ 32)
    (h : a >>> (32 - n) = b >>> (32 - n)) (t : Tree V) :
    ∀ (fuel k : Nat) (node : Option Nat),
      deleteDescend t a (maskBits n) fuel (startbit >>> k) node
        = deleteDescend t b (maskBits n) fuel (startbit >>> k) node := by
  intro fuel
  induction fuel with
  | zero => intro k node; rfl
  | succ fuel ih =>
    intro k node
    simp only [deleteDescend]
    by_cases hc : node ≠ none ∧ startbit >>> k &&& maskBits n ≠ 0
    · have hk := bit_and_mask_lt n k hn hc.2
      have hiff := keyTest_congr a b n k hn ha hb h hk
      simp only [hc, if_true, hiff, startbit_shift_succ, ih]
    · simp only [hc, if_false]

theorem delete32_congr (a b n : Nat) (hn : n ≤ 32) (ha : a < 2 ^ 32) (hb : b < 2 ^ 32)
    (h : a >>> (32 - n) = b >>> (32 - n)) (t : Tree V) :
    delete32 t a (maskBits n) = delete32 t b (maskBits n) := by
  unfold delete32
  generalize bitFuel = fuel
  have := deleteDescend_congr a b n hn ha hb h t fuel 0 t.root
  rw [Nat.shiftRight_zero] at this
  rw [this]

theorem find32Loop_congr (a b n : Nat) (hn : n ≤ 32) (ha : a < 2 ^ 32) (hb : b < 2 ^ 32)
    (h : a >>> (32 - n) = b >>> (32 - n)) (t : Tree V) :
    ∀ (fuel k : Nat) (node : Option Nat) (best : Option V),
      find32Loop t a (maskBits n) fuel (startbit >>> k) node best
        = find32Loop t b (maskBits n) fuel (startbit >>> k) node best := by
  intro fuel
  induction fuel with
  | zero => intro k node best; rfl
  | succ fuel ih =>
    intro k node best
    simp only [find32Loop]
    by_cases hm : maskBits n &&& startbit >>> k = 0
    · simp only [hm, if_true]
    · have hk := bit_and_mask_lt n k hn (by rw [Nat.land_comm]; exact hm)
      have hiff := keyTest_congr a b n k hn ha hb h hk
      simp only [hm, if_false, hiff, startbit_shift_succ, ih]

theorem find32_congr (a b n : Nat) (hn : n ≤ 32) (ha : a < 2 ^ 32) (hb : b < 2 ^ 32)
    (h : a >>> (32 - n) = b >>> (32 - n)) (t : Tree V) :
    find32 t a (maskBits n) = find32 t b (maskBits n) := by
  unfold find32
  generalize bitFuel = fuel
  have := find32Loop_congr a b n hn ha hb h t fuel 0 t.root none
  rw [Nat.shiftRight_zero] at this
  exact this

/-- C13. Host bits are ignored: for every tree, every length `n` in `0..32`
and every two 32-bit addresses that agree on their `n` most significant bits,
`insert32`, `delete32` and `find32` with the `n`-bit mask give the same outcome
(returned value or error, and resulting tree) for both addresses. -/
theorem C13_host_bits_ignored {V : Type} (t : Tree V) (n a b : Nat) (val : Option V)
    (hn : n ≤ 32) (ha : a < 2 ^ 32) (hb : b < 2 ^ 32)
    (h : a >>> (32 - n) = b >>> (32 - n)) :
    insert32 t a (maskBits n) val = insert32 t b (maskBits n) val
    ∧ delete32 t a (maskBits n) = delete32 t b (maskBits n)
    ∧ find32 t a (maskBits n) = find32 t b (maskBits n) :=
  ⟨insert32_congr a b n hn ha hb h t val, delete32_congr a b n hn ha hb h t,
    find32_congr a b n hn ha hb h t⟩

/-- Witness for C13: `1.2.3.1` and `1.2.3.0` under the 25-bit mask, on a tree
whose root carries a payload. -/
theorem C13_host_bits_ignored_witness :
    (25 ≤ 32 ∧ 16909057 < 2 ^ 32 ∧ 16909056 < 2 ^ 32
      ∧ 16909057 >>> (32 - 25) = 16909056 >>> (32 - 25))
    ∧ (insert32 busyRoot 16909057 (maskBits 25) (some 3)
          = insert32 busyRoot 16909056 (maskBits 25) (some 3)
        ∧ delete32 busyRoot 16909057 (maskBits 25) = delete32 busyRoot 16909056 (maskBits 25)
        ∧ find32 busyRoot 16909057 (maskBits 25) = find32 busyRoot 16909056 (maskBits 25)) :=
  ⟨by decide, C13_host_bits_ignored busyRoot 25 16909057 16909056 (some 3)
    (by decide) (by decide) (by decide) (by decide)⟩

/-! ### Nil payloads -/

theorem insert32_shaped_val {t : Tree V} {path : Nat → List Bool} (hs : Shaped t path)
    (key n : Nat) (hn : n ≤ 32) (val : Option V) :
    ∃ t1 path1 e,
      insert32 t key (maskBits n) val = .ok (t1, e)
      ∧ Shaped t1 path1
      ∧ (∀ q, lookup t1 q
          = (lookup t q).or (if q = keyPath key n then val else none))
      ∧ (lookup t (keyPath key n) = none → e = none) := by
  have hw0 : walk t.nodes (keyPath key 0) (some 0) = some 0 := rfl
  obtain ⟨k1, i1, next, hd, hk1, hw1, hcase⟩ :=
    insertDescend_shaped hs key n hn n 0 bitFuel 0 (by omega) (by unfold bitFuel; omega) hw0
  have hi1 := (hs.walk_root _ _ hw1).1
  have hnd : t.nodes[i1]? = some t.nodes[i1] := List.getElem?_eq_getElem hi1
  unfold insert32
  rw [hs.root]
  simp only [Nat.shiftRight_zero] at hd
  rw [hd]
  simp only [bind_ok]
  rcases hcase with ⟨hk, hnext⟩ | ⟨hk, hnext, hchild⟩
  · subst hk
    subst hnext
    have hl : lookup t (keyPath key k1) = (t.nodes[i1]).value := by
      simp [lookup, hs.root, hw1, hnd]
    simp only [ne_eq, reduceCtorEq, not_false_eq_true, if_true, deref_some t i1 _ hnd, bind_ok]
    cases hv : (t.nodes[i1]).value with
    | some w =>
      refine ⟨t, path, some .ErrNodeBusy, by simp, hs, ?_, ?_⟩
      · intro q
        by_cases hq : q = keyPath key k1
        · subst hq; rw [hl, hv]; simp
        · simp [hq]
      · intro h0
        rw [hl, hv] at h0
        cases h0
    | none =>
      refine ⟨_, path, none, by simp [modify_some t i1 _ _ hnd, bind_ok],
        setValue_shaped hs i1 _ val hnd, ?_, fun _ => rfl⟩
      intro q
      rw [setValue_lookup hs i1 _ val hnd _ hw1 q]
      by_cases hq : q = keyPath key k1
      · subst hq; rw [hl, hv]; simp
      · simp [hq]
  · subst hnext
    obtain ⟨t1, path1, i2, hc, hs1, hw2, hl1⟩ :=
      insertCreate_shaped key n hn (n - k1) k1 bitFuel t path i1 hs (by omega)
        (by unfold bitFuel; omega) hw1 (fun _ => hchild)
    have hi2 := (hs1.walk_root _ _ hw2).1
    have hnd2 : t1.nodes[i2]? = some t1.nodes[i2] := List.getElem?_eq_getElem hi2
    have hnone : lookup t (keyPath key n) = none := by
      obtain ⟨d, rfl⟩ : ∃ d, n = k1 + 1 + d := ⟨n - k1 - 1, by omega⟩
      have e : keyPath key (k1 + 1 + d)
          = keyPath key k1 ++ [keyBit key k1] ++ (List.range' (k1 + 1) d).map (keyBit key) := by
        rw [← keyPath_succ]
        simp [keyPath, List.range_add, List.range'_eq_map_range]
      unfold lookup
      rw [hs.root, e, walk_append, walk_snoc _ _ _ i1 _ hw1 hnd, hchild _ hnd, walk_none]
      rfl
    refine ⟨_, path1, none, by simp [hc, modify_some t1 i2 _ _ hnd2],
      setValue_shaped hs1 i2 _ val hnd2, ?_, fun _ => rfl⟩
    intro q
    rw [setValue_lookup hs1 i2 _ val hnd2 _ hw2 q]
    by_cases hq : q = keyPath key n
    · subst hq; rw [hnone]; simp
    · simp [hq, hl1 q]

set_option maxRecDepth 100000 in
theorem shl32_mask_small : ∀ s, s < 32 → shl32 0xffffffff s = maskBits (32 - s) := by
  decide

theorem shl32_mask_form (s : Nat) : ∃ n, n ≤ 32 ∧ shl32 0xffffffff s = maskBits n := by
  by_cases hs : s < 32
  · exact ⟨32 - s, by omega, shl32_mask_small s hs⟩
  · refine ⟨0, by omega, ?_⟩
    unfold shl32
    rw [if_pos (by omega)]
    rfl

theorem parsecidr4_mask_form (cidr : List Char) (ip mask : Nat)
    (h : parsecidr4 cidr = (ip, mask, none)) : ∃ n, n ≤ 32 ∧ mask = maskBits n := by
  unfold parsecidr4 at h
  simp only at h
  split_ifs at h with hp
  · split at h
    · cases h
    · rename_i m hm
      obtain ⟨n, hn, hmask⟩ := shl32_mask_form ((32 + 2 ^ 32 - m) % 2 ^ 32)
      split at h
      · cases h
      · injection h with h1 h2
        injection h2 with h2 h3
        exact ⟨n, hn, by rw [← h2, hmask]⟩
  · split at h
    · cases h
    · injection h with h1 h2
      injection h2 with h2 h3
      exact ⟨32, le_refl _, by rw [← h2]; rfl⟩

theorem findCIDR_lookup_congr {t t1 : Tree V} {path path1 : Nat → List Bool}
    (hs : Shaped t path) (hs1 : Shaped t1 path1) (hl : ∀ q, lookup t1 q = lookup t q)
    (cidr : List Char) : FindCIDR t1 cidr = FindCIDR t cidr := by
  unfold FindCIDR
  rcases hp : parsecidr4 cidr with ⟨ip, mask, e⟩
  cases e with
  | some e => rfl
  | none =>
    obtain ⟨n, hn, hmask⟩ := parsecidr4_mask_form cidr ip mask hp
    subst hmask
    simp only
    rw [find32_shaped hs ip n hn, find32_shaped hs1 ip n hn]
    simp only [hl]

theorem scanDown_top (f : Nat → Option V) (L : Nat) (v : V) (h : f L = some v) :
    scanDown f L = some v := by
  cases L with
  | zero => exact h
  | succ L => simp only [scanDown, h]

theorem or_none_ite (x : Option V) (c : Prop) [Decidable c] :
    x.or (if c then (none : Option V) else none) = x := by
  split_ifs <;> cases x <;> rfl

theorem addCallsAny_shaped (adds : List (Cidr × Option V)) :
    ∀ (done : List (Cidr × Option V)) (t : Tree V) (path : Nat → List Bool),
      (∀ e ∈ adds, e.1.WF) → Shaped t path →
      (∀ q, lookup t q ≠ none → ∃ e ∈ done, e.2 ≠ none ∧ keyPath e.1.key e.1.n = q) →
      ∃ t1 path1 rs, calls t (addCallsAny adds) = .ok (t1, rs) ∧ Shaped t1 path1
        ∧ ∀ q, lookup t1 q ≠ none →
            ∃ e ∈ done ++ adds, e.2 ≠ none ∧ keyPath e.1.key e.1.n = q := by
  induction adds with
  | nil =>
    intro done t path _ hs hl
    exact ⟨t, path, [], rfl, hs, by simpa using hl⟩
  | cons e adds ih =>
    intro done t path hwf hs hl
    have he := hwf e (List.mem_cons_self _ _)
    obtain ⟨t1, path1, err, h1, hs1, hl1, _⟩ :=
      insert32_shaped_val hs e.1.key e.1.n he.2.2.2.2 e.2
    have hl2 : ∀ q, lookup t1 q ≠ none →
        ∃ x ∈ done ++ [e], x.2 ≠ none ∧ keyPath x.1.key x.1.n = q := by
      intro q hq
      rw [hl1 q] at hq
      by_cases h0 : lookup t q = none
      · rw [h0] at hq
        simp only [Option.none_or] at hq
        by_cases hqe : q = keyPath e.1.key e.1.n
        · rw [if_pos hqe] at hq
          exact ⟨e, by simp, hq, hqe.symm⟩
        · rw [if_neg hqe] at hq
          exact absurd rfl hq
      · obtain ⟨x, hx, hx2, hx3⟩ := hl q h0
        exact ⟨x, by simp [hx], hx2, hx3⟩
    obtain ⟨t2, path2, rs, h2, hs2, hl3⟩ :=
      ih (done ++ [e]) t1 path1 (fun x hx => hwf x (List.mem_cons_of_mem _ hx)) hs1 hl2
    refine ⟨t2, path2, .error err :: rs, ?_, hs2, ?_⟩
    · simp only [addCallsAny, List.map_cons, calls, call, addCIDR_text t e.1 he, h1, bind_ok]
      simp only [addCallsAny] at h2
      rw [h2]
      rfl
    · intro q hq
      obtain ⟨x, hx, hx2, hx3⟩ := hl3 q hq
      exact ⟨x, by simpa using hx, hx2, hx3⟩

/-- C19. A nil payload is no payload: on a tree built from `NewTree(0)` by
`AddCIDR` calls (with nil or non-nil values) in which the block `P` is not
stored with a non-nil value, `AddCIDR(P, nil)` returns nil and changes the
answer of no `FindCIDR` call, whatever its text; a following `AddCIDR(P, v)`
with non-nil `v` returns nil, not `ErrNodeBusy`, and `FindCIDR(P)` then
returns `v`. -/
theorem C19_nil_payload_is_no_payload {V : Type} (adds : List (Cidr × Option V))
    (hadds : ∀ e ∈ adds, e.1.WF) (p : Cidr) (hp : p.WF)
    (hfree : ∀ e ∈ adds, e.2 ≠ none →
      ¬ (e.1.n = p.n ∧ e.1.key >>> (32 - p.n) = p.key >>> (32 - p.n)))
    (v : V) :
    ∃ t rs t1 t2, (NewTree 0).bind (fun t0 => calls t0 (addCallsAny adds)) = .ok (t, rs)
      ∧ AddCIDR t p.text none = .ok (t1, none)
      ∧ (∀ q, FindCIDR t1 q = FindCIDR t q)
      ∧ AddCIDR t1 p.text (some v) = .ok (t2, none)
      ∧ FindCIDR t2 p.text = .ok (some v, none) := by
  obtain ⟨t, path, rs, h1, hs, hl⟩ :=
    addCallsAny_shaped adds [] _ _ hadds (newTree_shaped (V := V))
      (fun q hq => absurd (newTree_lookup q) hq)
  have hnone : lookup t (keyPath p.key p.n) = none := by
    by_contra hc
    obtain ⟨e, he, he2, he3⟩ := hl _ hc
    rw [List.nil_append] at he
    have hwf := hadds e he
    exact hfree e he he2
      ((keyPath_eq_keyPath e.1.key e.1.n p.key p.n (cidr_key_lt e.1 hwf)
        (cidr_key_lt p hp) hwf.2.2.2.2).mp he3)
  obtain ⟨t1, path1, e1, ha1, hs1, hl1, he1⟩ :=
    insert32_shaped_val hs p.key p.n hp.2.2.2.2 (none : Option V)
  have hl1' : ∀ q, lookup t1 q = lookup t q := by
    intro q
    rw [hl1 q, or_none_ite]
  have hnone1 : lookup t1 (keyPath p.key p.n) = none := by rw [hl1', hnone]
  obtain ⟨t2, path2, e2, ha2, hs2, hl2, he2⟩ :=
    insert32_shaped_val hs1 p.key p.n hp.2.2.2.2 (some v)
  have hv : lookup t2 (keyPath p.key p.n) = some v := by
    rw [hl2, hnone1]
    simp
  refine ⟨t, rs, t1, t2, by rw [newTree_zero]; exact h1, ?_, ?_, ?_, ?_⟩
  · rw [addCIDR_text t p hp, ha1, he1 hnone]
  · exact findCIDR_lookup_congr hs hs1 hl1'
  · rw [addCIDR_text t1 p hp, ha2, he2 hnone1]
  · rw [findCIDR_text t2 p hp, find32_shaped hs2 p.key p.n hp.2.2.2.2, bind_ok,
      scanDown_top _ _ v hv]

/-- Witness for C19: the block `1.2.3.0/24` on a tree holding `1.2.3.0/25`
and a nil payload at `10.0.0.0/8`. -/
theorem C19_nil_payload_is_no_payload_witness :
    (∀ e ∈ [((⟨1, 2, 3, 0, 25⟩ : Cidr), some 1), (⟨10, 0, 0, 0, 8⟩, (none : Option Nat))],
        e.1.WF)
    ∧ (⟨1, 2, 3, 0, 24⟩ : Cidr).WF
    ∧ ∃ t rs t1 t2, (NewTree 0).bind (fun t0 => calls t0
          (addCallsAny [((⟨1, 2, 3, 0, 25⟩ : Cidr), some 1), (⟨10, 0, 0, 0, 8⟩, none)]))
          = .ok (t, rs)
      ∧ AddCIDR t (Cidr.text ⟨1, 2, 3, 0, 24⟩) none = .ok (t1, none)
      ∧ (∀ q, FindCIDR t1 q = FindCIDR t q)
      ∧ AddCIDR t1 (Cidr.text ⟨1, 2, 3, 0, 24⟩) (some 5) = .ok (t2, none)
      ∧ FindCIDR t2 (Cidr.text ⟨1, 2, 3, 0, 24⟩) = .ok (some 5, none) :=
  ⟨by decide, by decide,
    C19_nil_payload_is_no_payload
      [((⟨1, 2, 3, 0, 25⟩ : Cidr), some 1), (⟨10, 0, 0, 0, 8⟩, (none : Option Nat))]
      (by decide) ⟨1, 2, 3, 0, 24⟩ (by decide) (by decide) 5⟩

/-! ### Translating payloads -/

theorem bind_bind {α β γ : Type} (x : Res α) (f : α → Res β) (g : β → Res γ) :
    (x.bind f).bind g = x.bind fun a => (f a).bind g := by
  cases x <;> rfl

theorem deref_map {V W : Type} (f : V → W) (t : Tree V) (p : Option Nat) :
    deref (mapTree f t) p = (deref t p).bind fun n => .ok (mapNode f n) := by
  cases p with
  | none => rfl
  | some i =>
    simp only [deref, mapTree, List.getElem?_map]
    cases t.nodes[i]? <;> rfl

theorem modify_map {V W : Type} (f : V → W) (t : Tree V) (p : Option Nat)
    (g : Node V → Node V) (g1 : Node W → Node W)
    (hg : ∀ n, g1 (mapNode f n) = mapNode f (g n)) :
    modify (mapTree f t) p g1 = (modify t p g).bind fun t1 => .ok (mapTree f t1) := by
  cases p with
  | none => rfl
  | some i =>
    simp only [modify, mapTree, List.getElem?_map]
    cases t.nodes[i]? with
    | none => rfl
    | some n =>
      simp only [Option.map_some', bind_ok, hg, List.map_set]

theorem newnode_map {V W : Type} (f : V → W) (t : Tree V) :
    newnode (mapTree f t) = (newnode t).bind fun r => .ok (mapTree f r.1, r.2) := by
  unfold newnode
  cases hf : t.free with
  | none =>
    have : (mapTree f t).free = none := hf
    simp only [this, bind_ok]
    simp [mapTree, mapNode, zeroNode]
  | some p =>
    have : (mapTree f t).free = some p := hf
    simp only [this, deref_map, bind_bind, bind_ok]
    rfl

theorem insertDescend_map {V W : Type} (f : V → W) (t : Tree V) (key mask : Nat) :
    ∀ (fuel bit : Nat) (node next : Option Nat),
      insertDescend (mapTree f t) key mask fuel bit node next
        = insertDescend t key mask fuel bit node next := by
  intro fuel
  induction fuel with
  | zero => intro bit node next; rfl
  | succ fuel ih =>
    intro bit node next
    simp only [insertDescend, deref_map, bind_bind, bind_ok, ih]
    rfl

theorem insertCreate_map {V W : Type} (f : V → W) (key mask : Nat) :
    ∀ (fuel : Nat) (t : Tree V) (bit : Nat) (node : Option Nat),
      insertCreate key mask fuel (mapTree f t) bit node
        = (insertCreate key mask fuel t bit node).bind fun r => .ok (mapTree f r.1, r.2) := by
  intro fuel
  induction fuel with
  | zero => intro t bit node; rfl
  | succ fuel ih =>
    intro t bit node
    simp only [insertCreate]
    by_cases hbit : bit &&& mask ≠ 0
    · rw [if_pos hbit, if_pos hbit]
      simp only [newnode_map, bind_bind, bind_ok]
      apply bind_congr_ok
      rintro ⟨t1, next⟩ _
      simp only
      rw [modify_map f t1 next (fun n => { n with parent := node })
        (fun n => { n with parent := node }) (fun n => rfl)]
      simp only [bind_bind, bind_ok]
      apply bind_congr_ok
      intro t2 _
      rw [modify_map f t2 node
        (fun n => if key &&& bit ≠ 0 then { n with right := next } else { n with left := next })
        (fun n => if key &&& bit ≠ 0 then { n with right := next } else { n with left := next })
        (fun n => by split_ifs <;> rfl)]
      simp only [bind_bind, bind_ok]
      apply bind_congr_ok
      intro t3 _
      exact ih t3 _ _
    · rw [if_neg hbit, if_neg hbit]
      rfl

theorem insert32_map {V W : Type} (f : V → W) (t : Tree V) (key mask : Nat)
    (val : Option V) :
    insert32 (mapTree f t) key mask (val.map f)
      = (insert32 t key mask val).bind fun r => .ok (mapTree f r.1, r.2) := by
  unfold insert32
  generalize bitFuel = fuel
  have hr : (mapTree f t).root = t.root := rfl
  rw [hr, insertDescend_map, bind_bind]
  apply bind_congr_ok
  rintro ⟨bit, node, next⟩ _
  simp only
  by_cases hnext : next ≠ none
  · rw [if_pos hnext, if_pos hnext]
    simp only [deref_map, bind_bind, bind_ok]
    apply bind_congr_ok
    intro n _
    have hv : (mapNode f n).value.isSome = n.value.isSome := by
      cases h : n.value <;> simp [mapNode, h]
    rw [hv]
    cases hs : n.value.isSome with
    | true => simp only [if_true, bind_ok]
    | false =>
      simp only [Bool.false_eq_true, if_false]
      rw [modify_map f t node (fun n => { n with value := val })
        (fun n => { n with value := val.map f }) (fun n => rfl)]
      simp only [bind_bind, bind_ok]
  · rw [if_neg hnext, if_neg hnext]
    simp only [insertCreate_map, bind_bind, bind_ok]
    apply bind_congr_ok
    rintro ⟨t1, node1⟩ _
    simp only
    rw [modify_map f t1 node1 (fun n => { n with value := val })
      (fun n => { n with value := val.map f }) (fun n => rfl)]
    simp only [bind_bind, bind_ok]

theorem preallocKeys_map {V W : Type} (f : V → W) (mask inc : Nat) :
    ∀ (fuel : Nat) (t : Tree V) (key : Nat),
      preallocKeys mask inc fuel (mapTree f t) key
        = (preallocKeys mask inc fuel t key).bind fun t1 => .ok (mapTree f t1) := by
  intro fuel
  induction fuel with
  | zero => intro t key; rfl
  | succ fuel ih =>
    intro t key
    simp only [preallocKeys]
    have := insert32_map f t key mask none
    simp only [Option.map_none'] at this
    rw [this, bind_bind, bind_bind]
    apply bind_congr_ok
    rintro ⟨t1, e⟩ _
    simp only [bind_ok]
    split_ifs
    · rfl
    · exact ih t1 _

theorem preallocLevels_map {V W : Type} (f : V → W) :
    ∀ (p : Nat) (t : Tree V) (inc mask : Nat),
      preallocLevels p (mapTree f t) inc mask
        = (preallocLevels p t inc mask).bind fun t1 => .ok (mapTree f t1) := by
  intro p
  induction p with
  | zero => intro t inc mask; rfl
  | succ p ih =>
    intro t inc mask
    simp only [preallocLevels]
    generalize 2 ^ 32 = fuel
    rw [preallocKeys_map, bind_bind, bind_bind]
    apply bind_congr_ok
    intro t1 _
    simp only [bind_ok]
    exact ih t1 _ _

theorem newTree_map {V W : Type} (f : V → W) (p : Int) :
    (NewTree p : Res (Tree W)) = (NewTree p : Res (Tree V)).bind fun t => .ok (mapTree f t) := by
  unfold NewTree
  have h0 : newnode (⟨[], none, none, false⟩ : Tree W)
      = .ok (⟨[zeroNode], none, none, false⟩, some 0) := rfl
  have h1 : newnode (⟨[], none, none, false⟩ : Tree V)
      = .ok (⟨[zeroNode], none, none, false⟩, some 0) := rfl
  have ht : (⟨[zeroNode], some 0, none, false⟩ : Tree W)
      = mapTree f ⟨[zeroNode], some 0, none, false⟩ := rfl
  rw [h0, h1]
  simp only [bind_ok]
  rw [ht]
  generalize startbit = sb
  generalize (if p > 6 ∨ p < 0 then (6 : Int) else p).toNat = d
  by_cases hp : p = 0
  · rw [if_pos hp, if_pos hp]
    rfl
  · rw [if_neg hp, if_neg hp]
    exact preallocLevels_map f d _ sb 0

theorem walk_map {V W : Type} (f : V → W) (t : Tree V) (q : List Bool) :
    ∀ p, walk (mapTree f t).nodes q p = walk t.nodes q p := by
  induction q with
  | nil => intro p; rfl
  | cons b q ih =>
    intro p
    cases p with
    | none => rfl
    | some i =>
      simp only [walk, mapTree, List.getElem?_map]
      cases t.nodes[i]? with
      | none => rfl
      | some n => exact ih _

/-! ### Complete trees -/

theorem mem_pathsOfLen (q : List Bool) : ∀ n, q ∈ pathsOfLen n ↔ q.length = n := by
  induction q with
  | nil =>
    intro n
    cases n with
    | zero => simp [pathsOfLen]
    | succ n => simp [pathsOfLen]
  | cons b q ih =>
    intro n
    cases n with
    | zero => simp [pathsOfLen]
    | succ n =>
      simp only [pathsOfLen, List.mem_append, List.mem_map, List.cons.injEq, List.length_cons,
        Nat.add_right_cancel_iff]
      constructor
      · rintro (⟨x, hx, _, rfl⟩ | ⟨x, hx, _, rfl⟩) <;> exact (ih n).mp hx
      · intro h
        cases b
        · exact Or.inl ⟨q, (ih n).mpr h, rfl, rfl⟩
        · exact Or.inr ⟨q, (ih n).mpr h, rfl, rfl⟩

theorem mem_pathsUpTo (q : List Bool) : ∀ d, q ∈ pathsUpTo d ↔ q.length ≤ d := by
  intro d
  induction d with
  | zero =>
    simp only [pathsUpTo, List.mem_singleton, Nat.le_zero]
    exact ⟨fun h => by rw [h]; rfl, fun h => List.length_eq_zero.mp h⟩
  | succ d ih =>
    simp only [pathsUpTo, List.mem_append, ih, mem_pathsOfLen]
    omega

theorem find32Loop_payload_free (t : Tree V) (key mask : Nat)
    (hv : ∀ n ∈ t.nodes, n.value = none)
    (hc : ∀ n ∈ t.nodes, (∀ j, n.left = some j → j < t.nodes.length)
      ∧ (∀ j, n.right = some j → j < t.nodes.length)) :
    ∀ (f bit : Nat) (node : Option Nat) (best : Option V), bit < 2 ^ f →
      (∀ i, node = some i → i < t.nodes.length) →
      find32Loop t key mask (f + 1) bit node best = .ok best := by
  intro f
  induction f with
  | zero =>
    intro bit node best hbit hnode
    have hb : bit = 0 := by omega
    subst hb
    rw [find32Loop]
    cases node with
    | none => rfl
    | some i =>
      have hi := hnode i rfl
      have hn : t.nodes[i]? = some t.nodes[i] := List.getElem?_eq_getElem hi
      have hval := hv _ (List.getElem_mem hi)
      rw [if_neg (by simp), deref_some t i _ hn, bind_ok]
      simp [hval]
  | succ f ih =>
    intro bit node best hbit hnode
    rw [find32Loop]
    cases node with
    | none => rfl
    | some i =>
      have hi := hnode i rfl
      have hn : t.nodes[i]? = some t.nodes[i] := List.getElem?_eq_getElem hi
      have hval := hv _ (List.getElem_mem hi)
      have hch := hc _ (List.getElem_mem hi)
      rw [if_neg (by simp), deref_some t i _ hn, bind_ok]
      simp only [hval, Option.isSome_none, Bool.false_eq_true, if_false]
      by_cases hm : mask &&& bit = 0
      · rw [if_pos hm]
      · rw [if_neg hm]
        apply ih
        · rw [Nat.shiftRight_eq_div_pow]
          have : 2 ^ (f + 1) = 2 * 2 ^ f := by rw [Nat.pow_succ]; omega
          omega
        · intro j hj
          split_ifs at hj
          · exact hch.2 j hj
          · exact hch.1 j hj

theorem findCIDR_payload_free (t : Tree V) (hroot : t.root = some 0) (hlen : 0 < t.nodes.length)
    (hv : ∀ n ∈ t.nodes, n.value = none)
    (hc : ∀ n ∈ t.nodes, (∀ j, n.left = some j → j < t.nodes.length)
      ∧ (∀ j, n.right = some j → j < t.nodes.length))
    (cidr : List Char) : ∃ e, FindCIDR t cidr = .ok (none, e) := by
  unfold FindCIDR
  rcases parsecidr4 cidr with ⟨ip, mask, e⟩
  cases e with
  | some e => exact ⟨some e, rfl⟩
  | none =>
    refine ⟨none, ?_⟩
    simp only
    unfold find32
    have := find32Loop_payload_free t ip mask hv hc 32 startbit t.root none (by decide)
      (by intro i hi; rw [hroot] at hi; cases hi; exact hlen)
    have e : bitFuel = 32 + 1 := rfl
    rw [e, this]
    rfl

theorem complete_of_preallocOK (t : Tree V) (d : Nat) (h : preallocOK t d = true) :
    Complete t d := by
  unfold preallocOK at h
  simp only [Bool.and_eq_true, beq_iff_eq, List.all_eq_true, decide_eq_true_eq,
    List.any_eq_true, List.mem_range, Option.isNone_iff_eq_none] at h
  obtain ⟨⟨⟨⟨⟨⟨⟨⟨h1, h2⟩, h3⟩, h4⟩, h5⟩, h6⟩, h7⟩, h8⟩, h9⟩ := h
  have hleaf : ∀ q : List Bool, d < q.length → walk t.nodes q t.root = none := by
    intro q hq
    have hs : q = q.take (d + 1) ++ q.drop (d + 1) := (List.take_append_drop _ _).symm
    have ht : walk t.nodes (q.take (d + 1)) t.root = none :=
      h7 _ ((mem_pathsOfLen _ _).mpr (by rw [List.length_take]; omega))
    rw [hs, walk_append, ht, walk_none]
  refine ⟨h1, h2, h3, h4, ?_, ?_, hleaf, ?_, ?_⟩
  · intro n hn
    have := h5 n hn
    constructor
    · intro j hj
      have h51 := this.1
      rw [hj] at h51
      simpa using h51
    · intro j hj
      have h52 := this.2
      rw [hj] at h52
      simpa using h52
  · intro q hq
    have := h6 q ((mem_pathsUpTo q d).mpr hq)
    cases hw : walk t.nodes q t.root with
    | none => rw [hw] at this; cases this
    | some i =>
      rw [hw] at this
      simp only at this
      cases hn : t.nodes[i]? with
      | none => rw [hn] at this; cases this
      | some nd =>
        rw [hn] at this
        exact ⟨i, nd, rfl, hn, by simpa using this⟩
  · intro q1 q2 hq1 hq2 hw
    exact List.inj_on_of_nodup_map h8 ((mem_pathsUpTo q1 d).mpr hq1)
      ((mem_pathsUpTo q2 d).mpr hq2) hw
  · intro i hi
    obtain ⟨q, hq, hw⟩ := h9 i hi
    exact ⟨q, (mem_pathsUpTo q d).mp hq, by simpa using hw⟩

theorem complete_map {W : Type} (f : V → W) (t : Tree V) (d : Nat) (h : Complete t d) :
    Complete (mapTree f t) d := by
  have hlen : (mapTree f t).nodes.length = t.nodes.length := by simp [mapTree]
  have hroot : (mapTree f t).root = t.root := rfl
  refine ⟨by rw [hlen]; exact h.size, h.root, h.free, ?_, ?_, ?_, ?_, ?_, ?_⟩
  · intro n hn
    simp only [mapTree, List.mem_map] at hn
    obtain ⟨n0, hn0, rfl⟩ := hn
    simp [mapNode, h.empty n0 hn0]
  · intro n hn
    simp only [mapTree, List.mem_map] at hn
    obtain ⟨n0, hn0, rfl⟩ := hn
    rw [hlen]
    exact h.closed n0 hn0
  · intro q hq
    obtain ⟨i, nd, h1, h2, h3⟩ := h.attached q hq
    refine ⟨i, mapNode f nd, by rw [hroot, walk_map]; exact h1, ?_, ?_⟩
    · simp [mapTree, h2]
    · rw [hroot, walk_map]
      exact h3
  · intro q hq
    rw [hroot, walk_map]
    exact h.leaves q hq
  · intro q1 q2 hq1 hq2 hw
    rw [hroot, walk_map, walk_map] at hw
    exact h.apart q1 q2 hq1 hq2 hw
  · intro i hi
    rw [hlen] at hi
    obtain ⟨q, hq, hw⟩ := h.every i hi
    exact ⟨q, hq, by rw [hroot, walk_map]; exact hw⟩

theorem clampDepth_lt (p : Int) : clampDepth p < 7 := by
  unfold clampDepth
  split_ifs <;> omega

theorem newTree_clamp (p : Int) :
    (NewTree p : Res (Tree V)) = NewTree (Int.ofNat (clampDepth p)) := by
  by_cases hp : p = 0
  · subst hp; rfl
  · have hc : clampDepth p = (if p > 6 ∨ p < 0 then (6 : Int) else p).toNat := by
      unfold clampDepth
      rw [if_neg hp]
      split_ifs <;> rfl
    have hc0 : Int.ofNat (clampDepth p) ≠ 0 := by
      rw [hc]; split_ifs <;> simp <;> omega
    have hc1 : ¬ (Int.ofNat (clampDepth p) > 6 ∨ Int.ofNat (clampDepth p) < 0) := by
      have := clampDepth_lt p
      simp only [Int.ofNat_eq_coe]
      omega
    unfold NewTree
    simp only [if_neg hp, if_neg hc0, if_neg hc1, Int.toNat_ofNat, ← hc]
    rfl

/-! ### Preallocation -/

set_option maxRecDepth 1000000 in
theorem prealloc_eval : ∀ d : Nat, d < 7 →
    (NewTree (Int.ofNat d) : Res (Tree Empty)).bind (fun t => .ok (preallocOK t d)) = .ok true := by
  decide!

set_option maxRecDepth 1000000 in
theorem prealloc_turns : ∀ k : Nat, k < 6 →
    (NewTree (Int.ofNat k) : Res (Tree Empty)).bind
        (fun t0 => preallocKeys (maskBits (k + 1)) (startbit >>> k) (2 ^ (k + 1)) t0 0)
      = NewTree (Int.ofNat (k + 1))
    ∧ (NewTree (Int.ofNat k) : Res (Tree Empty)).bind
        (fun t0 => preallocKeys (maskBits (k + 1)) (startbit >>> k) (2 ^ (k + 1) - 1) t0 0)
      = .outOfFuel := by
  decide!

theorem prealloc_pass_map (p : Int) (mask inc fuel : Nat) :
    (NewTree p : Res (Tree V)).bind (fun t0 => preallocKeys mask inc fuel t0 0)
      = ((NewTree p : Res (Tree Empty)).bind
          (fun t0 => preallocKeys mask inc fuel t0 0)).bind
          fun t => .ok (mapTree (Empty.elim : Empty → V) t) := by
  rw [newTree_map (Empty.elim : Empty → V) p]
  generalize (NewTree p : Res (Tree Empty)) = r
  rw [bind_bind, bind_bind]
  apply bind_congr_ok
  intro t0 _
  rw [bind_ok]
  exact preallocKeys_map _ mask inc fuel t0 0

/-- C14. For every integer `p`, `NewTree p` returns a tree that is complete to
the clamped depth `d = clampDepth p` (0 for `p = 0`, `p` for `1 ≤ p ≤ 6`, 6
otherwise): it has `2 ^ (d + 1) - 1` nodes, the root is node 0, the free list
is empty, no node carries a payload, every bit-path of length at most `d`
leads to a node whose parent link is the node of the path without its last
bit, no path longer than `d` leads anywhere, different paths lead to different
nodes and every node is reached by some path; every `FindCIDR` on it returns
nil; and the key loop of level `k + 1` (for `k < d`), started on the tree
preallocated to depth `k`, ends after exactly `2 ^ (k + 1)` turns: that many
turns produce the tree preallocated to depth `k + 1`, one fewer do not end the
loop. -/
theorem C14_newTree_preallocates {V : Type} (p : Int) :
    ∃ t : Tree V, NewTree p = .ok t ∧ Complete t (clampDepth p)
      ∧ (∀ cidr : List Char, ∃ e, FindCIDR t cidr = .ok (none, e))
      ∧ (∀ k : Nat, k < clampDepth p →
          (NewTree (Int.ofNat k) : Res (Tree V)).bind
              (fun t0 => preallocKeys (maskBits (k + 1)) (startbit >>> k) (2 ^ (k + 1)) t0 0)
            = NewTree (Int.ofNat (k + 1))
          ∧ (NewTree (Int.ofNat k) : Res (Tree V)).bind
              (fun t0 => preallocKeys (maskBits (k + 1)) (startbit >>> k) (2 ^ (k + 1) - 1) t0 0)
            = .outOfFuel) := by
  have hd := clampDepth_lt p
  obtain ⟨t0, ht0, hok⟩ := bind_eq_ok _ _ _ (prealloc_eval (clampDepth p) hd)
  have hok1 : preallocOK t0 (clampDepth p) = true := by
    injection hok
  have hc : Complete (mapTree (Empty.elim : Empty → V) t0) (clampDepth p) :=
    complete_map _ t0 _ (complete_of_preallocOK t0 _ hok1)
  refine ⟨mapTree Empty.elim t0, ?_, hc, ?_, ?_⟩
  · rw [newTree_clamp p, newTree_map (Empty.elim : Empty → V), ht0]
    rfl
  · have hlen : 0 < (mapTree (Empty.elim : Empty → V) t0).nodes.length := by
      rw [hc.size]
      have : 2 ≤ 2 ^ (clampDepth p + 1) := by
        calc 2 = 2 ^ 1 := rfl
          _ ≤ 2 ^ (clampDepth p + 1) := Nat.pow_le_pow_right (by decide) (by omega)
      omega
    exact findCIDR_payload_free _ hc.root hlen hc.empty hc.closed
  · intro k hk
    obtain ⟨h1, h2⟩ := prealloc_turns k (by omega)
    constructor
    · rw [prealloc_pass_map, h1]
      exact (newTree_map (Empty.elim : Empty → V) _).symm
    · rw [prealloc_pass_map, h2]
      rfl

end Nradix
